import Mathlib

/-!
# Verification of the `ListDownloadCli` batch-download state machine

Shallow embedding of `src/cli/src/anipy_cli/clis/list_download_cli.py`
(the resumable batch-job orchestrator of anipy-cli's list-download mode).

External collaborators (interactive prompts, the download engine, the
provider registry, the filesystem and the JSON text parser) are modelled
as an explicit environment `Env`; the persisted job-state document and
the orchestrator's phases are translated function-by-function from the
Python source.  The orchestrator additionally emits an explicit event
trace (prompt invocations, disk checks, queue insertions, engine calls,
state-file saves) so that temporal properties of a run can be stated.
-/

namespace AnipyList

/-- One resolved show + language + episode set inside an entry
(the dicts appended to `entry["anime"]` in `take_input`). -/
structure Selection where
  provider : String
  identifier : String
  name : String
  languages : List String
  lang : String
  episodes : List Nat
  downloaded : Bool
  deriving DecidableEq, Repr

/-- One persisted entry of the state document: the original query line,
its resolved selections, and its `status` string
(`"pending"` or `"completed"` when produced by the program itself). -/
structure Entry where
  query : String
  anime : List Selection
  status : String
  deriving DecidableEq, Repr

/-- The persisted job-state document (`self.state`): `{"entries": [...]}`. -/
structure StateDoc where
  entries : List Entry
  deriving DecidableEq, Repr

/-- A show returned by the external interactive search prompt
(`search_show_multi_prompt`): carries its provider name, identifier,
display name and supported languages. -/
structure ResolvedShow where
  provider : String
  identifier : String
  name : String
  languages : List String
  deriving DecidableEq, Repr

/-- A fully-qualified downloadable item (the `Anime` object built by
`_resolve_anime`). -/
structure Item where
  provider : String
  identifier : String
  name : String
  languages : List String
  deriving DecidableEq, Repr

/-- One failure reported by the download engine: the `(Anime, Episode)`
pairs returned by `DownloadComponent.download_anime`. -/
structure DlError where
  name : String
  provider : String
  episode : Nat
  deriving DecidableEq, Repr

/-- An element of `self.picked`: `(anime, lang, episodes)`. -/
abbrev PickedItem := Item × String × List Nat

/-- Observable events of a run, in program order: state-file writes,
interactive prompts, existence checks (tagged with the entry/selection
position examined), queue insertions, download-engine invocations and
the end-of-run error report. -/
inductive Event where
  | save (doc : StateDoc)
  | promptSearch (query : String)
  | promptLang (query : String) (sh : ResolvedShow)
  | promptEpisodes (query : String) (sh : ResolvedShow) (lang : String)
  | diskCheck (entryIdx selIdx : Nat) (found : Bool)
  | enqueue (entryIdx selIdx : Nat) (item : Item) (lang : String)
      (episodes : List Nat)
  | engineCall (item : Item) (lang : String) (episodes : List Nat)
      (errors : List DlError)
  | serveErrors (errors : List DlError)
  deriving DecidableEq, Repr

/-- The external collaborators of the orchestrator.
Modelled from the spec: `search_show_multi_prompt`, `lang_prompt`,
`pick_episode_range_prompt` (the interactive resolver),
`Downloader._get_valid_pathname` (the filesystem-safe folder-naming rule
of the download engine, `sanitize`), the destination directory tree
(`disk`: sanitized folder name to the list of file stems in it, `none`
when the folder does not exist), the provider registry
(`list_providers`, here the list of registered provider names) and the
download engine (`engine`: per-item invocation returning the list of
failed `(name, provider, episode)` items) all live outside `src/` and
are external collaborators with fixed contracts per the spec. -/
structure Env where
  searchMulti : String → List ResolvedShow
  langPrompt : ResolvedShow → String
  pickEpisodes : ResolvedShow → String → List Nat
  sanitize : String → String
  disk : String → Option (List String)
  providers : List String
  engine : Item → String → List Nat → List DlError

/-! ## String helpers (Python `str.zfill` and the substring test `in`) -/

/-- `containsSub needle hay`: does `needle` occur as a contiguous
sublist of `hay`?  (Python's `needle in hay` on strings.) -/
def containsSub (needle : List Char) : List Char → Bool
  | [] => needle.isEmpty
  | c :: t => needle.isPrefixOf (c :: t) || containsSub needle t

/-- Python `needle in hay` for strings. -/
def strContainsSub (hay needle : String) : Bool :=
  containsSub needle.toList hay.toList

/-- Python `s.zfill(2)`: left-pad with `'0'` to width 2. -/
def zfill2 (s : String) : String :=
  String.mk (List.replicate (2 - s.length) '0') ++ s

/-! ## State lookup and persistence helpers -/

/-- `_find_state_entry`: first entry whose `query` equals the input line. -/
def find_state_entry (st : StateDoc) (q : String) : Option Entry :=
  st.entries.find? (fun e => e.query == q)

/-- `_check_already_on_disk`: `false` if the sanitized show folder does
not exist; otherwise every required episode's two-digit zero-padded
decimal string must occur as a substring of some file stem. -/
def check_already_on_disk (env : Env) (sel : Selection) : Bool :=
  match env.disk (env.sanitize sel.name) with
  | none => false
  | some stems =>
      sel.episodes.all (fun ep =>
        stems.any (fun f => strContainsSub f (zfill2 (toString ep))))

/-- `_resolve_anime`: look the provider up by name in the registry and
rebuild the item; a missing provider is a fatal error (`none`). -/
def resolve_anime (env : Env) (sel : Selection) : Option Item :=
  if env.providers.contains sel.provider then
    some ⟨sel.provider, sel.identifier, sel.name, sel.languages⟩
  else none

/-- `_check_entry_completed`: mark the entry `"completed"` when every
selection carries `downloaded = true` (vacuously so for no selections). -/
def check_entry_completed (e : Entry) : Entry :=
  if e.anime.all (fun a => a.downloaded) then
    { e with status := "completed" }
  else e

/-- The status-recomputation pass of `take_input` (lines 241-244). -/
def recompute_statuses (st : StateDoc) : StateDoc :=
  ⟨st.entries.map check_entry_completed⟩

/-! ## Phase 1: interactive resolution of unseen queries (lines 125-200) -/

/-- The per-show body of the `for anime in selected_anime` loop: prompt
for a language and an episode range; an empty episode range drops the
show, otherwise a fresh selection with `downloaded = false` is built. -/
def build_selection (env : Env) (sh : ResolvedShow) : Option Selection :=
  let lang := env.langPrompt sh
  let eps := env.pickEpisodes sh lang
  if eps.isEmpty then none
  else some ⟨sh.provider, sh.identifier, sh.name, sh.languages, lang, eps, false⟩

/-- The `for anime in selected_anime` loop: surviving selections in
prompt order, together with the prompt events it emits. -/
def resolve_shows (env : Env) (q : String) :
    List ResolvedShow → List Selection × List Event
  | [] => ([], [])
  | sh :: rest =>
      let lang := env.langPrompt sh
      let eps := env.pickEpisodes sh lang
      let (ss, evs) := resolve_shows env q rest
      let evHere := [Event.promptLang q sh, Event.promptEpisodes q sh lang]
      if eps.isEmpty then (ss, evHere ++ evs)
      else (⟨sh.provider, sh.identifier, sh.name, sh.languages, lang, eps,
              false⟩ :: ss,
            evHere ++ evs)

/-- The per-query body of the resolution loop: an existing entry
(completed or pending) only prints progress; an unseen query goes
through the interactive resolver, and a new entry is appended exactly
when at least one show survives episode selection. -/
def process_query (env : Env) (st : StateDoc) (q : String) :
    StateDoc × List Event :=
  match find_state_entry st q with
  | some _ => (st, [])
  | none =>
      let shows := env.searchMulti q
      if shows.isEmpty then (st, [Event.promptSearch q])
      else
        let (sels, evs) := resolve_shows env q shows
        if sels.isEmpty then (st, Event.promptSearch q :: evs)
        else ({ entries := st.entries ++ [⟨q, sels, "pending"⟩] },
              Event.promptSearch q :: evs)

/-- The whole resolution loop over the input list. -/
def resolution_pass (env : Env) : List String → StateDoc → StateDoc × List Event
  | [], st => (st, [])
  | q :: rest, st =>
      let r := process_query env st q
      let r2 := resolution_pass env rest r.1
      (r2.1, r.2 ++ r2.2)

/-! ## Phase 2: existence reconciliation and work-queue build
(lines 211-239) -/

/-- The inner `for anime_data in entry["anime"]` loop of the queue
build, carrying the entry index and the index of the selection under
examination.  Already-downloaded selections are skipped; an on-disk
selection is marked `downloaded := true` (in memory) and not enqueued;
otherwise the item is rebuilt and enqueued.  `none` models the fatal
exit when a provider is no longer registered. -/
def reconcile_sels (env : Env) (eIdx : Nat) :
    Nat → List Selection →
    Option (List Selection × List PickedItem × List Event)
  | _, [] => some ([], [], [])
  | sIdx, sel :: rest =>
      if sel.downloaded then
        match reconcile_sels env eIdx (sIdx + 1) rest with
        | none => none
        | some (ss, ps, evs) => some (sel :: ss, ps, evs)
      else if check_already_on_disk env sel then
        match reconcile_sels env eIdx (sIdx + 1) rest with
        | none => none
        | some (ss, ps, evs) =>
            some ({ sel with downloaded := true } :: ss, ps,
                  Event.diskCheck eIdx sIdx true :: evs)
      else
        match resolve_anime env sel with
        | none => none
        | some item =>
            match reconcile_sels env eIdx (sIdx + 1) rest with
            | none => none
            | some (ss, ps, evs) =>
                some (sel :: ss,
                      (item, sel.lang, sel.episodes) :: ps,
                      Event.diskCheck eIdx sIdx false ::
                        Event.enqueue eIdx sIdx item sel.lang sel.episodes ::
                        evs)

/-- The outer `for entry in self.state["entries"]` loop of the queue
build: completed entries are skipped whole. -/
def reconcile_entries (env : Env) :
    Nat → List Entry → Option (List Entry × List PickedItem × List Event)
  | _, [] => some ([], [], [])
  | eIdx, e :: rest =>
      if e.status == "completed" then
        match reconcile_entries env (eIdx + 1) rest with
        | none => none
        | some (es, ps, evs) => some (e :: es, ps, evs)
      else
        match reconcile_sels env eIdx 0 e.anime with
        | none => none
        | some (ss, ps1, evs1) =>
            match reconcile_entries env (eIdx + 1) rest with
            | none => none
            | some (es, ps2, evs2) =>
                some ({ e with anime := ss } :: es, ps1 ++ ps2, evs1 ++ evs2)

/-- `take_input` after the header: resolution pass, save, existence
reconciliation and queue build, status recomputation, save.  Returns
the state, the picked work queue and the event trace; `none` is the
fatal missing-provider exit. -/
def take_input (env : Env) (names : List String) (st0 : StateDoc) :
    Option (StateDoc × List PickedItem × List Event) :=
  let r1 := resolution_pass env names st0
  match reconcile_entries env 0 r1.1.entries with
  | none => none
  | some (es2, picked, evB) =>
      let st3 := recompute_statuses ⟨es2⟩
      some (st3, picked,
            r1.2 ++ [Event.save r1.1] ++ evB ++ [Event.save st3])

/-! ## Phase 3: driving the download engine (`process`, lines 261-289) -/

/-- `_find_anime_data`: position `(entryIdx, selIdx)` of the first
selection in document order whose display name and provider both match. -/
def sel_matches (s : Selection) (n p : String) : Bool :=
  s.name == n && s.provider == p

/-- Index of the first matching selection in one entry. -/
def find_sel_idx : List Selection → String → String → Option Nat
  | [], _, _ => none
  | s :: rest, n, p =>
      if sel_matches s n p then some 0
      else (find_sel_idx rest n p).map (fun j => j + 1)

/-- `_find_anime_data` as a document position. -/
def find_anime_data : List Entry → String → String → Option (Nat × Nat)
  | [], _, _ => none
  | e :: rest, n, p =>
      match find_sel_idx e.anime n p with
      | some j => some (0, j)
      | none => (find_anime_data rest n p).map (fun ij => (ij.1 + 1, ij.2))

/-- Set `downloaded := true` on the selection at index `j`. -/
def set_downloaded_at : List Selection → Nat → List Selection
  | [], _ => []
  | s :: rest, 0 => { s with downloaded := true } :: rest
  | s :: rest, j + 1 => s :: set_downloaded_at rest j

/-- Mark the selection at `(i, j)`, then recompute the status of the
entry that contains it (the `for entry ... if any(a is anime_data ...)`
loop). -/
def mark_entry_at : List Entry → Nat → Nat → List Entry
  | [], _, _ => []
  | e :: rest, 0, j =>
      check_entry_completed { e with anime := set_downloaded_at e.anime j } :: rest
  | e :: rest, i + 1, j => e :: mark_entry_at rest i j

/-- The success branch of `process`: find the downloaded item's first
matching selection, mark it, recheck its entry. -/
def mark_and_recheck (st : StateDoc) (n p : String) : StateDoc :=
  match find_anime_data st.entries n p with
  | none => st
  | some ij => ⟨mark_entry_at st.entries ij.1 ij.2⟩

/-- One iteration of the `for anime, lang, episodes in self.picked`
loop: invoke the engine; on success mark-and-recheck then save, on
failure keep the errors and leave the state untouched. -/
def process_item (env : Env) (st : StateDoc) (pk : PickedItem) :
    StateDoc × List DlError × List Event :=
  let errs := env.engine pk.1 pk.2.1 pk.2.2
  if errs.isEmpty then
    let st' := mark_and_recheck st pk.1.name pk.1.provider
    (st', [], [Event.engineCall pk.1 pk.2.1 pk.2.2 errs, Event.save st'])
  else (st, errs, [Event.engineCall pk.1 pk.2.1 pk.2.2 errs])

/-- The whole `process` loop, accumulating errors in order. -/
def process_all (env : Env) (st : StateDoc) :
    List PickedItem → StateDoc × List DlError × List Event
  | [] => (st, [], [])
  | pk :: rest =>
      let r1 := process_item env st pk
      let r2 := process_all env r1.1 rest
      (r2.1, r1.2.1 ++ r2.2.1, r1.2.2 ++ r2.2.2)

/-- One full run of the orchestrator on an already-loaded state.
Modelled from the spec: the CLI driver (`CliBase.run`, not under
`src/`) runs `print_header` (which fatally aborts on an empty input
list), then `take_input`, then `process`; when `take_input` returns
`False` (empty work queue) the run stops there, so the end-of-run error
report is only emitted when items were actually queued. -/
def run_once (env : Env) (names : List String) (st0 : StateDoc) :
    Option (StateDoc × List DlError × List Event) :=
  if names.isEmpty then none
  else
    match take_input env names st0 with
    | none => none
    | some (st, picked, ev1) =>
        if picked.isEmpty then some (st, [], ev1)
        else
          let r := process_all env st picked
          some (r.1, r.2.1, ev1 ++ r.2.2 ++ [Event.serveErrors r.2.1])

/-! ## State-file loading (`print_header`, lines 55-71) -/

/-- Parsed JSON values (the output of `json.loads`).  The text-level
parser itself is Python's `json` library, an external collaborator, so
the loader below takes an already-parsed value, with `none` standing
for text on which parsing raised `json.JSONDecodeError`. -/
inductive Json where
  | num (n : Int)
  | str (s : String)
  | arr (elems : List Json)
  | obj (fields : List (String × Json))
  deriving Repr

/-- Dictionary lookup on a parsed JSON object. -/
def lookupField : List (String × Json) → String → Option Json
  | [], _ => none
  | (k, v) :: rest, key => if k == key then some v else lookupField rest key

/-- The exception behaviour of the resume-summary expression
`sum(1 for e in state["entries"] if e["status"] == "completed")` on one
entry list: `some true` = no exception, `some false` = `KeyError`
(an object entry without `"status"`, caught by the handler),
`none` = `TypeError` (a non-object entry, not caught). -/
def scanEntriesStatus : List Json → Option Bool
  | [] => some true
  | Json.obj fs :: rest =>
      match lookupField fs "status" with
      | some _ => scanEntriesStatus rest
      | none => some false
  | _ :: _ => none

/-- The initial / fallback state document `{"entries": []}`. -/
def emptyStateJson : Json := Json.obj [("entries", Json.arr [])]

/-- The state-loading block of `print_header`: `some st` means the run
proceeds with state `st`, `none` means an uncaught exception fails the
run.  Only `json.JSONDecodeError` (input `none`) and `KeyError` (a root
object without `"entries"`, or an object entry without `"status"`) are
caught and fall back to the empty document; subscripting or iterating a
value of the wrong shape raises `TypeError`, which the handler does not
catch. -/
def loadState (parsed : Option Json) : Option Json :=
  match parsed with
  | none => some emptyStateJson
  | some j =>
      match j with
      | Json.obj fields =>
          match lookupField fields "entries" with
          | none => some emptyStateJson
          | some (Json.arr es) =>
              match scanEntriesStatus es with
              | none => none
              | some true => some j
              | some false => some emptyStateJson
          | some (Json.obj []) => some j
          | some (Json.obj (_ :: _)) => none
          | some (Json.str s) => if s.isEmpty then some j else none
          | some (Json.num _) => none
      | _ => none

/-! ## Trace and ordering helpers -/

/-- Documents written by the `save` events of a trace, in order. -/
def saveDocs (tr : List Event) : List StateDoc :=
  tr.filterMap (fun ev =>
    match ev with
    | Event.save d => some d
    | _ => none)

/-- The download-engine invocations of a trace. -/
def engineCalls (tr : List Event) : List Event :=
  tr.filter (fun ev =>
    match ev with
    | Event.engineCall _ _ _ _ => true
    | _ => false)

/-- Is this event an interactive-resolver invocation for query `q`? -/
def isPromptFor (q : String) : Event → Bool
  | Event.promptSearch q' => q' == q
  | Event.promptLang q' _ => q' == q
  | Event.promptEpisodes q' _ _ => q' == q
  | _ => false

/-- Is this event a queue insertion of a selection of entry `i`? -/
def isEnqueueFor (i : Nat) : Event → Bool
  | Event.enqueue i' _ _ _ _ => i' == i
  | _ => false

/-- The entry index an existence-check or enqueue event refers to. -/
def eventEntryIdx : Event → Option Nat
  | Event.diskCheck i _ _ => some i
  | Event.enqueue i _ _ _ _ => some i
  | _ => none

/-- The selection index an existence-check or enqueue event refers to. -/
def eventSelIdx : Event → Option Nat
  | Event.diskCheck _ j _ => some j
  | Event.enqueue _ j _ _ _ => some j
  | _ => none

/-- Events relevant to the persist-ordering question: state-file writes
and selection examinations (disk checks and queue insertions). -/
def isRelevantEvent : Event → Bool
  | Event.save _ => true
  | Event.diskCheck _ _ _ => true
  | Event.enqueue _ _ _ _ _ => true
  | _ => false

/-- Is this event a state-file write? -/
def isSaveEvent : Event → Bool
  | Event.save _ => true
  | _ => false

/-- Does every positive existence check get persisted before the next
selection is examined?  After each `diskCheck _ _ true`, the next
relevant event must be a `save`. -/
def immediatePersistOK : List Event → Bool
  | [] => true
  | Event.diskCheck _ _ true :: rest =>
      (match rest.find? isRelevantEvent with
       | some ev => isSaveEvent ev
       | none => false)
      && immediatePersistOK rest
  | _ :: rest => immediatePersistOK rest

/-- The `downloaded` flag of the selection at `(i, j)` of a document
(`false` when the position does not exist). -/
def selFlagAt (st : StateDoc) (i j : Nat) : Bool :=
  match st.entries[i]? with
  | some e =>
      match e.anime[j]? with
      | some s => s.downloaded
      | none => false
  | none => false

/-! ## The monotonicity order on state documents -/

/-- Selection progress order: a `downloaded` flag never reverts. -/
def SelLE (a b : Selection) : Prop :=
  a.downloaded = true → b.downloaded = true

/-- Entry progress order: a `"completed"` status never reverts, and the
selections progress pointwise. -/
def EntryLE (a b : Entry) : Prop :=
  (a.status = "completed" → b.status = "completed") ∧
  List.Forall₂ SelLE a.anime b.anime

/-- Document progress order: the old entries progress pointwise and new
entries may only be appended after them. -/
def StateLE (a b : StateDoc) : Prop :=
  ∃ pre post, b.entries = pre ++ post ∧ List.Forall₂ EntryLE a.entries pre

/-! ## Small accessors used in theorem statements -/

/-- Final state of a (successful) run. -/
def runStateOf (r : Option (StateDoc × List DlError × List Event)) : StateDoc :=
  (r.map (fun x => x.1)).getD ⟨[]⟩

/-- Accumulated error report of a (successful) run. -/
def runErrsOf (r : Option (StateDoc × List DlError × List Event)) : List DlError :=
  (r.map (fun x => x.2.1)).getD []

/-- Event trace of a (successful) run. -/
def runTraceOf (r : Option (StateDoc × List DlError × List Event)) : List Event :=
  (r.map (fun x => x.2.2)).getD []

/-- Status of the entry at index `i`. -/
def statusAt (st : StateDoc) (i : Nat) : Option String :=
  (st.entries[i]?).map (fun e => e.status)

/-- The selection at position `(i, j)` of an entry list. -/
def selAt (es : List Entry) (i j : Nat) : Option Selection :=
  match es[i]? with
  | some e => e.anime[j]?
  | none => none

/-- No selection strictly before position `(i, j)` in document order
(entries in order, each entry's `anime` in order) matches `(n, p)`. -/
def noMatchBefore (es : List Entry) (n p : String) (i j : Nat) : Bool :=
  (es.take i).all (fun e => e.anime.all (fun s => !sel_matches s n p)) &&
  (match es[i]? with
   | some e => (e.anime.take j).all (fun s => !sel_matches s n p)
   | none => true)

/-- Is this event a queue insertion of the selection at `(i, j)`? -/
def isEnqueueAt (i j : Nat) : Event → Bool
  | Event.enqueue i' j' _ _ _ => i' == i && j' == j
  | _ => false

/-- Is this event an interactive-resolver invocation (of any kind)? -/
def isPromptEvent : Event → Bool
  | Event.promptSearch _ => true
  | Event.promptLang _ _ => true
  | Event.promptEpisodes _ _ _ => true
  | _ => false

/-- Is this event a download-engine invocation or a state-file write
(the only events the `process` phase emits)? -/
def isProcessEvent : Event → Bool
  | Event.engineCall _ _ _ _ => true
  | Event.save _ => true
  | _ => false

/-! ## Concrete scenarios used by witnesses and counterexamples -/

/-- A pending selection of show `A`. -/
def selA : Selection := ⟨"p", "idA", "A", ["sub"], "sub", [1], false⟩

/-- A pending selection of show `B`. -/
def selB : Selection := ⟨"p", "idB", "B", ["sub"], "sub", [1], false⟩

/-- A pending selection of show `C`. -/
def selC : Selection := ⟨"p", "idC", "C", ["sub"], "sub", [1], false⟩

/-- Three-entry pending state for the partial-failure scenario. -/
def st4 : StateDoc :=
  ⟨[⟨"q1", [selA], "pending"⟩, ⟨"q2", [selB], "pending"⟩,
    ⟨"q3", [selC], "pending"⟩]⟩

/-- Environment in which the engine fails exactly on show `B` (empty
disk, provider `p` registered, resolver never needed). -/
def env4 : Env where
  searchMulti := fun _ => []
  langPrompt := fun _ => "sub"
  pickEpisodes := fun _ _ => []
  sanitize := fun s => s
  disk := fun _ => none
  providers := ["p"]
  engine := fun it _ _ => if it.name == "B" then [⟨"B", "p", 1⟩] else []

/-- Expected final state of the partial-failure scenario: items 1 and 3
downloaded and completed, item 2 untouched and pending. -/
def st4F : StateDoc :=
  ⟨[⟨"q1", [⟨"p", "idA", "A", ["sub"], "sub", [1], true⟩], "completed"⟩,
    ⟨"q2", [selB], "pending"⟩,
    ⟨"q3", [⟨"p", "idC", "C", ["sub"], "sub", [1], true⟩], "completed"⟩]⟩

/-- Environment whose engine fails on everything. -/
def env1 : Env where
  searchMulti := fun _ => []
  langPrompt := fun _ => "sub"
  pickEpisodes := fun _ _ => []
  sanitize := fun s => s
  disk := fun _ => none
  providers := ["p"]
  engine := fun _ _ _ => [⟨"A", "p", 1⟩]

/-- One pending entry whose only selection is not downloaded. -/
def st1 : StateDoc := ⟨[⟨"q", [selA], "pending"⟩]⟩

/-- One completed entry whose selection is downloaded. -/
def stC : StateDoc :=
  ⟨[⟨"q", [⟨"p", "idA", "A", ["sub"], "sub", [1], true⟩], "completed"⟩]⟩

/-- One pending entry with two non-downloaded selections. -/
def st8 : StateDoc := ⟨[⟨"q", [selA, selB], "pending"⟩]⟩

/-- Environment in which every show is already complete on disk (every
folder contains a stem matching episode 1). -/
def env8 : Env where
  searchMulti := fun _ => []
  langPrompt := fun _ => "sub"
  pickEpisodes := fun _ _ => []
  sanitize := fun s => s
  disk := fun _ => some ["01_episode"]
  providers := ["p"]
  engine := fun _ _ _ => []

/-- Destination tree for the existence-check scenario: folder `Show`
holds files with stems `01_episode` and `02_episode`; no other folder
exists.  The sanitizer is the identity on these names. -/
def env5 : Env where
  searchMulti := fun _ => []
  langPrompt := fun _ => "sub"
  pickEpisodes := fun _ _ => []
  sanitize := fun s => s
  disk := fun f => if f == "Show" then some ["01_episode", "02_episode"] else none
  providers := ["p"]
  engine := fun _ _ _ => []

/-- Selection of `Show` requiring episodes 1 and 2. -/
def sel5a : Selection := ⟨"p", "id", "Show", ["sub"], "sub", [1, 2], false⟩

/-- Selection of `Show` requiring episodes 1, 2 and 3. -/
def sel5b : Selection := ⟨"p", "id", "Show", ["sub"], "sub", [1, 2, 3], false⟩

/-- Selection of the non-existent folder `NoSuchShow`. -/
def sel5c : Selection := ⟨"p", "id", "NoSuchShow", ["sub"], "sub", [1], false⟩

/-- A show whose episode prompt yields a non-empty range. -/
def sh7a : ResolvedShow := ⟨"p", "idA", "A", ["sub"]⟩

/-- A show whose episode prompt yields an empty range. -/
def sh7b : ResolvedShow := ⟨"p", "idB", "B", ["sub"]⟩

/-- Environment for the fresh-entry scenario: the search prompt for
`"q"` yields two shows, the episode prompt is empty exactly for `B`. -/
def env7 : Env where
  searchMulti := fun q => if q == "q" then [sh7a, sh7b] else []
  langPrompt := fun _ => "sub"
  pickEpisodes := fun sh _ => if sh.name == "B" then [] else [1]
  sanitize := fun s => s
  disk := fun _ => none
  providers := ["p"]
  engine := fun _ _ _ => []

/-- Two distinct selections (different identifiers) sharing the same
display name and provider, in one entry. -/
def st10 : StateDoc :=
  ⟨[⟨"q", [⟨"p", "id1", "A", ["sub"], "sub", [1], false⟩,
           ⟨"p", "id2", "A", ["sub"], "sub", [2], false⟩], "pending"⟩]⟩

/-- State after `process` handles a successful download of the second
duplicate: the first duplicate is the one marked. -/
def st10M : StateDoc :=
  ⟨[⟨"q", [⟨"p", "id1", "A", ["sub"], "sub", [1], true⟩,
           ⟨"p", "id2", "A", ["sub"], "sub", [2], false⟩], "pending"⟩]⟩

/-- Environment whose engine always succeeds. -/
def env10 : Env where
  searchMulti := fun _ => []
  langPrompt := fun _ => "sub"
  pickEpisodes := fun _ _ => []
  sanitize := fun s => s
  disk := fun _ => none
  providers := ["p"]
  engine := fun _ _ _ => []

/-- The item rebuilt from the second duplicate selection of `st10`. -/
def item10 : Item := ⟨"p", "id2", "A", ["sub"]⟩

/-- A hand-edited document holding one entry with an empty `anime` list. -/
def st9 : StateDoc := ⟨[⟨"hand", [], "pending"⟩]⟩

/-! # Lemmas -/

/-- `containsSub` decides contiguous-sublist membership. -/
theorem containsSub_iff (n : List Char) :
    ∀ h, containsSub n h = true ↔ n <:+: h := by
  intro h
  induction h with
  | nil => simp [containsSub, List.isEmpty_iff]
  | cons c t ih => simp [containsSub, List.infix_cons_iff, ih]

/-- A successful `find_sel_idx` points at a match and nothing earlier
in the list matches. -/
theorem find_sel_idx_first (n p : String) :
    ∀ sels j, find_sel_idx sels n p = some j →
      (∃ s, sels[j]? = some s ∧ sel_matches s n p = true) ∧
      (sels.take j).all (fun s => !sel_matches s n p) = true := by
  intro sels
  induction sels with
  | nil => intro j h; simp [find_sel_idx] at h
  | cons s rest ih =>
      intro j h
      cases hm : sel_matches s n p with
      | true =>
          simp [find_sel_idx, hm] at h
          subst h
          exact ⟨⟨s, by simp, hm⟩, rfl⟩
      | false =>
          rw [find_sel_idx, if_neg (by simp [hm])] at h
          rcases Option.map_eq_some'.mp h with ⟨j', hj', rfl⟩
          rcases ih j' hj' with ⟨⟨s', hs', hm'⟩, hall⟩
          refine ⟨⟨s', by simpa using hs', hm'⟩, ?_⟩
          simp [List.take_succ_cons, List.all_cons, hall, hm]

/-- A `find_sel_idx` miss means no selection in the list matches. -/
theorem find_sel_idx_none (n p : String) :
    ∀ sels, find_sel_idx sels n p = none →
      sels.all (fun s => !sel_matches s n p) = true := by
  intro sels
  induction sels with
  | nil => intro _; rfl
  | cons s rest ih =>
      intro h
      cases hm : sel_matches s n p with
      | true => simp [find_sel_idx, hm] at h
      | false =>
          rw [find_sel_idx, if_neg (by simp [hm])] at h
          have h' := Option.map_eq_none'.mp h
          simp [List.all_cons, ih h', hm]

/-- A successful `_find_anime_data` lookup points at a matching
selection, and no earlier position in document order matches. -/
theorem find_anime_data_first (n p : String) :
    ∀ es i j, find_anime_data es n p = some (i, j) →
      (selAt es i j).map (fun s => sel_matches s n p) = some true ∧
      noMatchBefore es n p i j = true := by
  intro es
  induction es with
  | nil => intro i j h; simp [find_anime_data] at h
  | cons e rest ih =>
      intro i j h
      rw [find_anime_data] at h
      cases hf : find_sel_idx e.anime n p with
      | some j0 =>
          rw [hf] at h
          injection h with h'
          injection h' with h1 h2
          subst h1; subst h2
          rcases find_sel_idx_first n p e.anime j0 hf with ⟨⟨s, hs, hm⟩, hall⟩
          constructor
          · simp [selAt, hs, hm]
          · simp [noMatchBefore, hall]
      | none =>
          rw [hf] at h
          rcases Option.map_eq_some'.mp h with ⟨⟨i', j'⟩, hij, hpair⟩
          injection hpair with h1 h2
          subst h1; subst h2
          rcases ih i' j' hij with ⟨hsel, hbefore⟩
          constructor
          · simpa [selAt] using hsel
          · have hnone := find_sel_idx_none n p e.anime hf
            simp only [noMatchBefore, Bool.and_eq_true] at hbefore ⊢
            refine ⟨?_, ?_⟩
            · simp [List.take_succ_cons, List.all_cons, hnone, hbefore.1]
            · simpa using hbefore.2

/-- The surviving selections of the per-show prompt loop are exactly
the shows whose episode prompt is non-empty, in order. -/
theorem resolve_shows_fst (env : Env) (q : String) :
    ∀ shows, (resolve_shows env q shows).1 =
      shows.filterMap (build_selection env) := by
  intro shows
  induction shows with
  | nil => rfl
  | cons sh rest ih =>
      simp only [resolve_shows, build_selection, List.filterMap_cons]
      cases h : (env.pickEpisodes sh (env.langPrompt sh)).isEmpty with
      | true => simp [h, ih]
      | false => simp [h, ih]

/-! # Claims -/

/-- C5: the existence check returns false when the sanitized show
folder does not exist, and otherwise returns true iff every required
episode's two-digit zero-padded decimal form occurs as a contiguous
substring of at least one file stem in the folder; in particular, for a
folder `Show` with stems `01_episode` and `02_episode` it accepts
episodes `[1, 2]`, rejects `[1, 2, 3]`, and rejects the non-existent
folder `NoSuchShow` with episodes `[1]`. -/
theorem claim_C5_existence_check :
    (∀ env sel, check_already_on_disk env sel = true ↔
      ∃ stems, env.disk (env.sanitize sel.name) = some stems ∧
        ∀ ep ∈ sel.episodes, ∃ f ∈ stems,
          (zfill2 (toString ep)).toList <:+: f.toList) ∧
    check_already_on_disk env5 sel5a = true ∧
    check_already_on_disk env5 sel5b = false ∧
    check_already_on_disk env5 sel5c = false := by
  refine ⟨?_, by decide, by decide, by decide⟩
  intro env sel
  unfold check_already_on_disk
  cases hd : env.disk (env.sanitize sel.name) with
  | none => simp
  | some stems =>
      simp [List.all_eq_true, List.any_eq_true, strContainsSub, containsSub_iff]

/-- C9: an entry whose `anime` list is empty is marked `"completed"` by
the status-recomputation step, the completeness condition being
vacuously true over zero selections. -/
theorem claim_C9_empty_entry_completed (st : StateDoc) (i : Nat) (e : Entry)
    (h1 : st.entries[i]? = some e) (h2 : e.anime = []) :
    check_entry_completed e = ⟨e.query, [], "completed"⟩ ∧
    statusAt (recompute_statuses st) i = some "completed" := by
  constructor
  · cases e
    simp_all [check_entry_completed]
  · simp only [statusAt, recompute_statuses, List.getElem?_map, h1,
      Option.map_some']
    cases e
    simp_all [check_entry_completed]

/-- C9 witness: the recomputation pass marks a hand-edited entry with
no selections completed. -/
theorem claim_C9_witness :
    check_entry_completed ⟨"hand", [], "pending"⟩ = ⟨"hand", [], "completed"⟩ ∧
    statusAt (recompute_statuses st9) 0 = some "completed" :=
  claim_C9_empty_entry_completed st9 0 ⟨"hand", [], "pending"⟩ rfl rfl

/-- C6 (amended): the loader falls back to the empty document exactly
when the caught exceptions occur — a text parse failure
(`json.JSONDecodeError`), a root object without an `"entries"` key, or
an object entry without a `"status"` key (`KeyError`); in particular
the two spec examples load as the empty document.  (Parseable documents
of the wrong shape instead raise an uncaught `TypeError`, see the
counterexample.) -/
theorem claim_C6_load_fallback :
    loadState none = some emptyStateJson ∧
    (∀ fs, lookupField fs "entries" = none →
      loadState (some (Json.obj fs)) = some emptyStateJson) ∧
    (∀ fs es, lookupField fs "entries" = some (Json.arr es) →
      scanEntriesStatus es = some false →
      loadState (some (Json.obj fs)) = some emptyStateJson) ∧
    loadState (some (Json.obj
      [("entries", Json.arr [Json.obj [("query", Json.str "x")]])])) =
      some emptyStateJson := by
  refine ⟨rfl, ?_, ?_, rfl⟩
  · intro fs h
    simp [loadState, h]
  · intro fs es h1 h2
    simp [loadState, h1, h2]

/-- C6 counterexample: the state file `[]` parses fine and is missing
the expected `"entries"` key, yet loading it raises an uncaught
`TypeError` (subscripting a list with a string) and fails the run
instead of proceeding with the empty document. -/
theorem claim_C6_counterexample :
    loadState (some (Json.arr [])) = none ∧
    loadState (some (Json.arr [])) ≠ some emptyStateJson := by
  exact ⟨rfl, by simp [loadState]⟩

/-- C6 witness: a root object without an `"entries"` key loads as the
empty document. -/
theorem claim_C6_witness :
    loadState (some (Json.obj [("a", Json.num 1)])) = some emptyStateJson :=
  claim_C6_load_fallback.2.1 [("a", Json.num 1)] rfl

/-- C4: with a three-item work queue whose second item fails, items 1
and 3 end downloaded with their entries recomputed to completed, item
2's entry stays pending with its selection not downloaded, the
end-of-run report holds exactly item 2's failures, and item 3 is still
processed after item 2's failure. -/
theorem claim_C4_partial_failure :
    runStateOf (run_once env4 ["q1", "q2", "q3"] st4) = st4F ∧
    runErrsOf (run_once env4 ["q1", "q2", "q3"] st4) = [⟨"B", "p", 1⟩] ∧
    (engineCalls (runTraceOf (run_once env4 ["q1", "q2", "q3"] st4))).length
      = 3 ∧
    Event.engineCall ⟨"p", "idC", "C", ["sub"]⟩ "sub" [1] [] ∈
      runTraceOf (run_once env4 ["q1", "q2", "q3"] st4) ∧
    Event.serveErrors [⟨"B", "p", 1⟩] ∈
      runTraceOf (run_once env4 ["q1", "q2", "q3"] st4) := by
  refine ⟨rfl, rfl, rfl, by decide, by decide⟩

/-- C10: a successful download is matched back to the state document by
`(name, provider)` only, and the selection marked is the first match in
document order; concretely, when the second of two duplicate-keyed
selections is the one downloaded, the first is marked and the second
stays unmarked. -/
theorem claim_C10_first_match_marked :
    (∀ es n p i j, find_anime_data es n p = some (i, j) →
      (selAt es i j).map (fun s => sel_matches s n p) = some true ∧
      noMatchBefore es n p i j = true) ∧
    process_item env10 st10 (item10, "sub", [1]) =
      (st10M, [],
       [Event.engineCall item10 "sub" [1] [], Event.save st10M]) ∧
    selFlagAt st10M 0 0 = true ∧
    selFlagAt st10M 0 1 = false := by
  exact ⟨fun es n p i j => find_anime_data_first n p es i j,
    by decide, by decide, by decide⟩

/-- C10 witness: looking up the duplicate key of `st10` lands on the
first duplicate, with nothing before it matching. -/
theorem claim_C10_witness :
    (selAt st10.entries 0 0).map (fun s => sel_matches s "A" "p") =
      some true ∧
    noMatchBefore st10.entries "A" "p" 0 0 = true :=
  claim_C10_first_match_marked.1 st10.entries "A" "p" 0 0 rfl

/-- C7: for a previously-unseen query, an entry is appended exactly
when some resolved show survives episode selection; shows with an empty
episode selection are dropped, the surviving selections keep prompt
order and all start with `downloaded = false`, and the appended entry
is `"pending"`; concretely, a new query with two shows of which one has
an empty episode selection yields an entry with exactly one selection. -/
theorem claim_C7_fresh_entry (env : Env) (st : StateDoc) (q : String)
    (h : find_state_entry st q = none) :
    ((process_query env st q).1.entries =
      if ((env.searchMulti q).filterMap (build_selection env)).isEmpty
      then st.entries
      else st.entries ++
        [⟨q, (env.searchMulti q).filterMap (build_selection env), "pending"⟩]) ∧
    ((env.searchMulti q).filterMap (build_selection env)).all
      (fun s => !s.downloaded) = true ∧
    (process_query env7 ⟨[]⟩ "q").1.entries =
      [⟨"q", [⟨"p", "idA", "A", ["sub"], "sub", [1], false⟩], "pending"⟩] := by
  refine ⟨?_, ?_, by decide⟩
  · rw [process_query, h]
    cases hs : env.searchMulti q with
    | nil => simp
    | cons sh rest =>
        rcases hrs : resolve_shows env q (sh :: rest) with ⟨sels, evs⟩
        have hfst : sels = List.filterMap (build_selection env) (sh :: rest) := by
          have h' := resolve_shows_fst env q (sh :: rest)
          rw [hrs] at h'
          exact h'
        subst hfst
        cases hempty : (List.filterMap (build_selection env) (sh :: rest)).isEmpty with
        | true => simp [hrs, hempty]
        | false => simp [hrs, hempty]
  · rw [List.all_eq_true]
    intro s hs
    rcases List.mem_filterMap.mp hs with ⟨sh, _, hbuild⟩
    rw [build_selection] at hbuild
    by_cases he : (env.pickEpisodes sh (env.langPrompt sh)).isEmpty
    · simp [he] at hbuild
    · simp only [if_neg he] at hbuild
      injection hbuild with hb
      subst hb
      rfl

/-- C7 witness: the fresh-entry construction at the concrete two-show
environment, where the second show's episode prompt is empty. -/
theorem claim_C7_witness :
    ((process_query env7 (⟨[]⟩ : StateDoc) "q").1.entries =
      if ((env7.searchMulti "q").filterMap (build_selection env7)).isEmpty
      then (⟨[]⟩ : StateDoc).entries
      else (⟨[]⟩ : StateDoc).entries ++
        [⟨"q", (env7.searchMulti "q").filterMap (build_selection env7),
          "pending"⟩]) ∧
    ((env7.searchMulti "q").filterMap (build_selection env7)).all
      (fun s => !s.downloaded) = true ∧
    (process_query env7 ⟨[]⟩ "q").1.entries =
      [⟨"q", [⟨"p", "idA", "A", ["sub"], "sub", [1], false⟩], "pending"⟩] :=
  claim_C7_fresh_entry env7 ⟨[]⟩ "q" rfl

/-! ## Resolution-pass lemmas -/

/-- One resolution step either keeps the entry list or appends one
entry. -/
theorem process_query_entries (env : Env) (st : StateDoc) (q : String) :
    (process_query env st q).1.entries = st.entries ∨
    ∃ e, (process_query env st q).1.entries = st.entries ++ [e] := by
  rw [process_query]
  cases hf : find_state_entry st q with
  | some e => exact Or.inl rfl
  | none =>
      cases hs : env.searchMulti q with
      | nil => exact Or.inl rfl
      | cons sh rest =>
          rcases hrs : resolve_shows env q (sh :: rest) with ⟨sels, evs⟩
          cases hempty : sels.isEmpty with
          | true => simp [hrs, hempty]
          | false =>
              simp only [hrs, hempty, List.isEmpty_cons]
              exact Or.inr ⟨⟨q, sels, "pending"⟩, by simp⟩

/-- Every event of the per-show prompt loop is a resolver invocation. -/
theorem resolve_shows_events (env : Env) (q : String) :
    ∀ shows, ∀ ev ∈ (resolve_shows env q shows).2, isPromptEvent ev = true := by
  intro shows
  induction shows with
  | nil => intro ev hev; simp [resolve_shows] at hev
  | cons sh rest ih =>
      intro ev hev
      rw [resolve_shows] at hev
      rcases hrs : resolve_shows env q rest with ⟨ss, evs⟩
      rw [hrs] at hev
      cases hempty : (env.pickEpisodes sh (env.langPrompt sh)).isEmpty <;>
        · rw [hempty] at hev
          simp at hev
          rcases hev with hev | hev | hev
          · subst hev; rfl
          · subst hev; rfl
          · exact ih ev (by rw [hrs]; exact hev)

/-- Every event of one resolution step is a resolver invocation. -/
theorem process_query_events (env : Env) (st : StateDoc) (q : String) :
    ∀ ev ∈ (process_query env st q).2, isPromptEvent ev = true := by
  intro ev hev
  rw [process_query] at hev
  cases hf : find_state_entry st q with
  | some e => rw [hf] at hev; simp at hev
  | none =>
      rw [hf] at hev
      cases hs : env.searchMulti q with
      | nil =>
          rw [hs] at hev
          simp at hev
          subst hev; rfl
      | cons sh rest =>
          rw [hs] at hev
          rcases hrs : resolve_shows env q (sh :: rest) with ⟨sels, evs⟩
          have hevs : ∀ e' ∈ evs, isPromptEvent e' = true := by
            intro e' he'
            exact resolve_shows_events env q (sh :: rest) e' (by rw [hrs]; exact he')
          cases hempty : sels.isEmpty <;>
            · simp only [hrs, hempty] at hev
              simp at hev
              rcases hev with hev | hev
              · subst hev; rfl
              · exact hevs ev hev

/-- A resolver invocation for query `q'` can only be emitted while
processing `q'` itself, and only when it had no entry. -/
theorem process_query_prompt_for (env : Env) (st : StateDoc) (q q' : String) :
    ∀ ev ∈ (process_query env st q).2, isPromptFor q' ev = true →
      q = q' ∧ find_state_entry st q = none := by
  have hshows : ∀ shows, ∀ ev ∈ (resolve_shows env q shows).2,
      isPromptFor q' ev = true → q = q' := by
    intro shows
    induction shows with
    | nil => intro ev hev; simp [resolve_shows] at hev
    | cons sh rest ih =>
        intro ev hev hp
        rw [resolve_shows] at hev
        rcases hrs : resolve_shows env q rest with ⟨ss, evs⟩
        rw [hrs] at hev
        cases hempty : (env.pickEpisodes sh (env.langPrompt sh)).isEmpty <;>
          · rw [hempty] at hev
            simp at hev
            rcases hev with hev | hev | hev
            · subst hev; simpa [isPromptFor] using hp
            · subst hev; simpa [isPromptFor] using hp
            · exact ih ev (by rw [hrs]; exact hev) hp
  intro ev hev hp
  rw [process_query] at hev
  cases hf : find_state_entry st q with
  | some e => rw [hf] at hev; simp at hev
  | none =>
      refine ⟨?_, rfl⟩
      rw [hf] at hev
      cases hs : env.searchMulti q with
      | nil =>
          rw [hs] at hev
          simp at hev
          subst hev
          simpa [isPromptFor] using hp
      | cons sh rest =>
          rw [hs] at hev
          rcases hrs : resolve_shows env q (sh :: rest) with ⟨sels, evs⟩
          have hin : ∀ e' ∈ evs, isPromptFor q' e' = true → q = q' := by
            intro e' he'
            exact hshows (sh :: rest) e' (by rw [hrs]; exact he')
          cases hempty : sels.isEmpty <;>
            · simp only [hrs, hempty] at hev
              simp at hev
              rcases hev with hev | hev
              · subst hev; simpa [isPromptFor] using hp
              · exact hin ev hev hp

/-- The resolution pass only ever appends entries. -/
theorem resolution_pass_entries (env : Env) :
    ∀ names st, ∃ tail,
      (resolution_pass env names st).1.entries = st.entries ++ tail := by
  intro names
  induction names with
  | nil => intro st; exact ⟨[], by simp [resolution_pass]⟩
  | cons q rest ih =>
      intro st
      rw [resolution_pass]
      rcases ih (process_query env st q).1 with ⟨t1, ht1⟩
      rcases process_query_entries env st q with h0 | ⟨e, h0⟩
      · exact ⟨t1, by rw [ht1, h0]⟩
      · exact ⟨[e] ++ t1, by rw [ht1, h0, List.append_assoc]⟩

/-- Every event of the resolution pass is a resolver invocation. -/
theorem resolution_pass_events (env : Env) :
    ∀ names st, ∀ ev ∈ (resolution_pass env names st).2,
      isPromptEvent ev = true := by
  intro names
  induction names with
  | nil => intro st ev hev; simp [resolution_pass] at hev
  | cons q rest ih =>
      intro st ev hev
      rw [resolution_pass] at hev
      rcases List.mem_append.mp hev with hev | hev
      · exact process_query_events env st q ev hev
      · exact ih (process_query env st q).1 ev hev

/-- An entry lookup that succeeds keeps succeeding after appends. -/
theorem find_state_entry_append (st : StateDoc) (q : String) (tail : List Entry)
    (h : (find_state_entry st q).isSome = true) :
    (find_state_entry ⟨st.entries ++ tail⟩ q).isSome = true := by
  unfold find_state_entry at h ⊢
  rw [List.find?_append]
  simp only [Option.isSome_or, h, Bool.true_or]

/-- Queries that already have an entry are never prompted for during
the resolution pass. -/
theorem resolution_pass_no_prompts (env : Env) (q : String) :
    ∀ names st, (find_state_entry st q).isSome = true →
      ∀ ev ∈ (resolution_pass env names st).2, isPromptFor q ev = false := by
  intro names
  induction names with
  | nil => intro st _ ev hev; simp [resolution_pass] at hev
  | cons q' rest ih =>
      intro st hfind ev hev
      rw [resolution_pass] at hev
      rcases List.mem_append.mp hev with hev | hev
      · cases hp : isPromptFor q ev with
        | false => rfl
        | true =>
            rcases process_query_prompt_for env st q' q ev hev hp with ⟨rfl, hnone⟩
            rw [hnone] at hfind
            simp at hfind
      · refine ih (process_query env st q').1 ?_ ev hev
        rcases process_query_entries env st q' with h0 | ⟨e, h0⟩
        · have : (process_query env st q').1 = st := by
            cases hpq : (process_query env st q').1
            cases st
            simp_all
          rw [this]; exact hfind
        · have := find_state_entry_append st q [e] hfind
          cases hpq : (process_query env st q').1
          simp_all [find_state_entry]

/-! ## Reconciliation lemmas -/

/-- Step characterization of the inner reconciliation loop: one
selection is skipped, found on disk, or enqueued, and the recursion
continues at the next index. -/
theorem reconcile_sels_cons (env : Env) (eIdx k : Nat) (sel : Selection)
    (rest : List Selection) (ss : List Selection) (ps : List PickedItem)
    (evs : List Event)
    (h : reconcile_sels env eIdx k (sel :: rest) = some (ss, ps, evs)) :
    ∃ ss' ps' evs',
      reconcile_sels env eIdx (k + 1) rest = some (ss', ps', evs') ∧
      ((sel.downloaded = true ∧ ss = sel :: ss' ∧ ps = ps' ∧ evs = evs') ∨
       (sel.downloaded = false ∧ check_already_on_disk env sel = true ∧
          ss = { sel with downloaded := true } :: ss' ∧ ps = ps' ∧
          evs = Event.diskCheck eIdx k true :: evs') ∨
       (∃ item, sel.downloaded = false ∧
          check_already_on_disk env sel = false ∧
          resolve_anime env sel = some item ∧
          ss = sel :: ss' ∧ ps = (item, sel.lang, sel.episodes) :: ps' ∧
          evs = Event.diskCheck eIdx k false ::
            Event.enqueue eIdx k item sel.lang sel.episodes :: evs')) := by
  rw [reconcile_sels] at h
  cases hd : sel.downloaded with
  | true =>
      rw [if_pos hd] at h
      cases hrec : reconcile_sels env eIdx (k + 1) rest with
      | none => rw [hrec] at h; exact absurd h (by simp)
      | some r =>
          rcases r with ⟨ss', ps', evs'⟩
          rw [hrec] at h
          injection h with h'
          injection h' with h1 h2
          injection h2 with h2 h3
          exact ⟨ss', ps', evs', rfl, Or.inl ⟨rfl, h1.symm, h2.symm, h3.symm⟩⟩
  | false =>
      rw [if_neg (by simp [hd])] at h
      cases hdisk : check_already_on_disk env sel with
      | true =>
          rw [if_pos hdisk] at h
          cases hrec : reconcile_sels env eIdx (k + 1) rest with
          | none => rw [hrec] at h; exact absurd h (by simp)
          | some r =>
              rcases r with ⟨ss', ps', evs'⟩
              rw [hrec] at h
              injection h with h'
              injection h' with h1 h2
              injection h2 with h2 h3
              exact ⟨ss', ps', evs', rfl,
                Or.inr (Or.inl ⟨rfl, rfl, h1.symm, h2.symm, h3.symm⟩)⟩
      | false =>
          rw [if_neg (by simp [hdisk])] at h
          cases hres : resolve_anime env sel with
          | none => rw [hres] at h; exact absurd h (by simp)
          | some item =>
              rw [hres] at h
              cases hrec : reconcile_sels env eIdx (k + 1) rest with
              | none => rw [hrec] at h; exact absurd h (by simp)
              | some r =>
                  rcases r with ⟨ss', ps', evs'⟩
                  rw [hrec] at h
                  injection h with h'
                  injection h' with h1 h2
                  injection h2 with h2 h3
                  exact ⟨ss', ps', evs', rfl,
                    Or.inr (Or.inr ⟨item, rfl, rfl, rfl,
                      h1.symm, h2.symm, h3.symm⟩)⟩

/-- Step characterization of the outer reconciliation loop: a completed
entry is skipped whole, a non-completed entry contributes its inner
loop's results. -/
theorem reconcile_entries_cons (env : Env) (k : Nat) (e : Entry)
    (rest : List Entry) (es : List Entry) (ps : List PickedItem)
    (evs : List Event)
    (h : reconcile_entries env k (e :: rest) = some (es, ps, evs)) :
    ∃ es' ps' evs',
      reconcile_entries env (k + 1) rest = some (es', ps', evs') ∧
      ((e.status = "completed" ∧ es = e :: es' ∧ ps = ps' ∧ evs = evs') ∨
       (e.status ≠ "completed" ∧ ∃ ss ps1 evs1,
          reconcile_sels env k 0 e.anime = some (ss, ps1, evs1) ∧
          es = { e with anime := ss } :: es' ∧ ps = ps1 ++ ps' ∧
          evs = evs1 ++ evs')) := by
  rw [reconcile_entries] at h
  cases hc : e.status == "completed" with
  | true =>
      rw [if_pos hc] at h
      cases hrec : reconcile_entries env (k + 1) rest with
      | none => rw [hrec] at h; exact absurd h (by simp)
      | some r =>
          rcases r with ⟨es', ps', evs'⟩
          rw [hrec] at h
          injection h with h'
          injection h' with h1 h2
          injection h2 with h2 h3
          exact ⟨es', ps', evs', rfl,
            Or.inl ⟨by simpa using hc, h1.symm, h2.symm, h3.symm⟩⟩
  | false =>
      rw [if_neg (by simp [hc])] at h
      cases hsels : reconcile_sels env k 0 e.anime with
      | none => rw [hsels] at h; exact absurd h (by simp)
      | some r1 =>
          rcases r1 with ⟨ss, ps1, evs1⟩
          rw [hsels] at h
          cases hrec : reconcile_entries env (k + 1) rest with
          | none => rw [hrec] at h; exact absurd h (by simp)
          | some r =>
              rcases r with ⟨es', ps', evs'⟩
              rw [hrec] at h
              injection h with h'
              injection h' with h1 h2
              injection h2 with h2 h3
              exact ⟨es', ps', evs', rfl,
                Or.inr ⟨by simpa using hc, ss, ps1, evs1, rfl,
                  h1.symm, h2.symm, h3.symm⟩⟩

/-- The inner loop only ever raises `downloaded` flags, pointwise. -/
theorem reconcile_sels_forall₂ (env : Env) (eIdx : Nat) :
    ∀ sels k ss ps evs,
      reconcile_sels env eIdx k sels = some (ss, ps, evs) →
      List.Forall₂ SelLE sels ss := by
  intro sels
  induction sels with
  | nil =>
      intro k ss ps evs h
      rw [reconcile_sels] at h
      injection h with h'
      injection h' with h1 h2
      subst h1
      exact List.Forall₂.nil
  | cons sel rest ih =>
      intro k ss ps evs h
      rcases reconcile_sels_cons env eIdx k sel rest ss ps evs h with
        ⟨ss', ps', evs', hrec, hcase⟩
      rcases hcase with ⟨_, rfl, _, _⟩ | ⟨_, _, rfl, _, _⟩ |
        ⟨item, _, _, _, rfl, _, _⟩
      · exact List.Forall₂.cons (fun hd => hd) (ih (k + 1) ss' ps' evs' hrec)
      · exact List.Forall₂.cons (fun _ => rfl) (ih (k + 1) ss' ps' evs' hrec)
      · exact List.Forall₂.cons (fun hd => hd) (ih (k + 1) ss' ps' evs' hrec)

/-- Every event of the inner loop refers to a selection index at or
after the starting index. -/
theorem reconcile_sels_selIdx (env : Env) (eIdx : Nat) :
    ∀ sels k ss ps evs,
      reconcile_sels env eIdx k sels = some (ss, ps, evs) →
      ∀ ev ∈ evs, ∀ j, eventSelIdx ev = some j → k ≤ j := by
  intro sels
  induction sels with
  | nil =>
      intro k ss ps evs h ev hev
      rw [reconcile_sels] at h
      injection h with h'
      injection h' with h1 h2
      injection h2 with h2 h3
      subst h3
      simp at hev
  | cons sel rest ih =>
      intro k ss ps evs h ev hev j hj
      rcases reconcile_sels_cons env eIdx k sel rest ss ps evs h with
        ⟨ss', ps', evs', hrec, hcase⟩
      rcases hcase with ⟨_, _, _, rfl⟩ | ⟨_, _, _, _, rfl⟩ |
        ⟨item, _, _, _, _, _, rfl⟩
      · exact Nat.le_of_succ_le (ih (k + 1) _ _ _ hrec ev hev j hj)
      · rcases List.mem_cons.mp hev with rfl | hev
        · simp [eventSelIdx] at hj
          omega
        · exact Nat.le_of_succ_le (ih (k + 1) _ _ _ hrec ev hev j hj)
      · rcases List.mem_cons.mp hev with rfl | hev
        · simp [eventSelIdx] at hj
          omega
        · rcases List.mem_cons.mp hev with rfl | hev
          · simp [eventSelIdx] at hj
            omega
          · exact Nat.le_of_succ_le (ih (k + 1) _ _ _ hrec ev hev j hj)

/-- Every event of the inner loop carries the loop's entry index. -/
theorem reconcile_sels_entryIdx (env : Env) (eIdx : Nat) :
    ∀ sels k ss ps evs,
      reconcile_sels env eIdx k sels = some (ss, ps, evs) →
      ∀ ev ∈ evs, eventEntryIdx ev = some eIdx := by
  intro sels
  induction sels with
  | nil =>
      intro k ss ps evs h ev hev
      rw [reconcile_sels] at h
      injection h with h'
      injection h' with h1 h2
      injection h2 with h2 h3
      subst h3
      simp at hev
  | cons sel rest ih =>
      intro k ss ps evs h ev hev
      rcases reconcile_sels_cons env eIdx k sel rest ss ps evs h with
        ⟨ss', ps', evs', hrec, hcase⟩
      rcases hcase with ⟨_, _, _, rfl⟩ | ⟨_, _, _, _, rfl⟩ |
        ⟨item, _, _, _, _, _, rfl⟩
      · exact ih (k + 1) _ _ _ hrec ev hev
      · rcases List.mem_cons.mp hev with rfl | hev
        · rfl
        · exact ih (k + 1) _ _ _ hrec ev hev
      · rcases List.mem_cons.mp hev with rfl | hev
        · rfl
        · rcases List.mem_cons.mp hev with rfl | hev
          · rfl
          · exact ih (k + 1) _ _ _ hrec ev hev

/-- A positive existence check at selection index `j` leaves the output
selection at `j` marked downloaded. -/
theorem reconcile_sels_flag (env : Env) (eIdx : Nat) :
    ∀ sels k ss ps evs,
      reconcile_sels env eIdx k sels = some (ss, ps, evs) →
      ∀ i j, Event.diskCheck i j true ∈ evs →
      ∃ d s, j = k + d ∧ ss[d]? = some s ∧ s.downloaded = true := by
  intro sels
  induction sels with
  | nil =>
      intro k ss ps evs h i j hev
      rw [reconcile_sels] at h
      injection h with h'
      injection h' with h1 h2
      injection h2 with h2 h3
      subst h3
      simp at hev
  | cons sel rest ih =>
      intro k ss ps evs h i j hev
      rcases reconcile_sels_cons env eIdx k sel rest ss ps evs h with
        ⟨ss', ps', evs', hrec, hcase⟩
      rcases hcase with ⟨_, rfl, _, rfl⟩ | ⟨_, _, rfl, _, rfl⟩ |
        ⟨item, _, _, _, rfl, _, rfl⟩
      · rcases ih (k + 1) _ _ _ hrec i j hev with ⟨d, s, hd, hs, hf⟩
        exact ⟨d + 1, s, by omega, by simpa using hs, hf⟩
      · rcases List.mem_cons.mp hev with heq | hev
        · injection heq with _ h2 _
          exact ⟨0, { sel with downloaded := true }, by omega, by simp, rfl⟩
        · rcases ih (k + 1) _ _ _ hrec i j hev with ⟨d, s, hd, hs, hf⟩
          exact ⟨d + 1, s, by omega, by simpa using hs, hf⟩
      · rcases List.mem_cons.mp hev with heq | hev
        · exact absurd heq (by simp)
        · rcases List.mem_cons.mp hev with heq | hev
          · exact absurd heq (by simp)
          · rcases ih (k + 1) _ _ _ hrec i j hev with ⟨d, s, hd, hs, hf⟩
            exact ⟨d + 1, s, by omega, by simpa using hs, hf⟩

/-- A selection found on disk is never also enqueued: a positive
existence check at `(i, j)` excludes any queue insertion at `(i, j)`. -/
theorem reconcile_sels_exclusive (env : Env) (eIdx : Nat) :
    ∀ sels k ss ps evs,
      reconcile_sels env eIdx k sels = some (ss, ps, evs) →
      ∀ i j it l eps, Event.diskCheck i j true ∈ evs →
      Event.enqueue i j it l eps ∈ evs → False := by
  intro sels
  induction sels with
  | nil =>
      intro k ss ps evs h i j it l eps hd he
      rw [reconcile_sels] at h
      injection h with h'
      injection h' with h1 h2
      injection h2 with h2 h3
      subst h3
      simp at hd
  | cons sel rest ih =>
      intro k ss ps evs h i j it l eps hd he
      rcases reconcile_sels_cons env eIdx k sel rest ss ps evs h with
        ⟨ss', ps', evs', hrec, hcase⟩
      rcases hcase with ⟨_, _, _, rfl⟩ | ⟨_, _, _, _, rfl⟩ |
        ⟨item, _, _, _, _, _, rfl⟩
      · exact ih (k + 1) _ _ _ hrec i j it l eps hd he
      · rcases List.mem_cons.mp hd with heq | hd
        · injection heq with h1' h2' _
          rcases List.mem_cons.mp he with heq' | he
          · exact absurd heq' (by simp)
          · have hle := reconcile_sels_selIdx env eIdx rest (k + 1) _ _ _
              hrec _ he j rfl
            omega
        · rcases List.mem_cons.mp he with heq' | he
          · exact absurd heq' (by simp)
          · exact ih (k + 1) _ _ _ hrec i j it l eps hd he
      · rcases List.mem_cons.mp hd with heq | hd
        · exact absurd heq (by simp)
        · rcases List.mem_cons.mp hd with heq | hd
          · exact absurd heq (by simp)
          · rcases List.mem_cons.mp he with heq' | he
            · exact absurd heq' (by simp)
            · rcases List.mem_cons.mp he with heq' | he
              · injection heq' with h1' h2' _ _ _
                have hle := reconcile_sels_selIdx env eIdx rest (k + 1) _ _ _
                  hrec _ hd j rfl
                omega
              · exact ih (k + 1) _ _ _ hrec i j it l eps hd he

/-- Recomputing a status never changes the selection list. -/
theorem check_entry_completed_anime (e : Entry) :
    (check_entry_completed e).anime = e.anime := by
  rw [check_entry_completed]
  split <;> rfl

/-- Recomputing a status keeps `"completed"` entries completed. -/
theorem check_entry_completed_status (e : Entry)
    (h : e.status = "completed") :
    (check_entry_completed e).status = "completed" := by
  rw [check_entry_completed]
  split <;> simp [h]

/-- Recomputing the status of a completed entry is the identity. -/
theorem check_entry_completed_fixed (e : Entry)
    (h : e.status = "completed") :
    check_entry_completed e = e := by
  cases e
  rw [check_entry_completed]
  split <;> simp_all

/-- `EntryLE` is reflexive. -/
theorem EntryLE_refl (e : Entry) : EntryLE e e :=
  ⟨fun h => h, List.forall₂_same.mpr (fun _ _ => fun hd => hd)⟩

/-- `StateLE` is reflexive. -/
theorem StateLE_refl (a : StateDoc) : StateLE a a :=
  ⟨a.entries, [], by simp, List.forall₂_same.mpr (fun e _ => EntryLE_refl e)⟩

/-- Appending entries only moves a document up the progress order. -/
theorem StateLE_append (a : StateDoc) (tail : List Entry) :
    StateLE a ⟨a.entries ++ tail⟩ :=
  ⟨a.entries, tail, rfl, List.forall₂_same.mpr (fun e _ => EntryLE_refl e)⟩

/-- Every event of the outer reconciliation loop refers to an entry
index at or after the starting index. -/
theorem reconcile_entries_entryIdx (env : Env) :
    ∀ es k es' ps evs,
      reconcile_entries env k es = some (es', ps, evs) →
      ∀ ev ∈ evs, ∀ i, eventEntryIdx ev = some i → k ≤ i := by
  intro es
  induction es with
  | nil =>
      intro k es' ps evs h ev hev
      rw [reconcile_entries] at h
      injection h with h'
      injection h' with h1 h2
      injection h2 with h2 h3
      subst h3
      simp at hev
  | cons e rest ih =>
      intro k es' ps evs h ev hev i hi
      rcases reconcile_entries_cons env k e rest es' ps evs h with
        ⟨es2, ps2, evs2, hrec, hcase⟩
      rcases hcase with ⟨_, _, _, rfl⟩ |
        ⟨hne, ss, ps1, evs1, hsels, _, _, rfl⟩
      · exact Nat.le_of_succ_le (ih (k + 1) _ _ _ hrec ev hev i hi)
      · rcases List.mem_append.mp hev with hev | hev
        · have := reconcile_sels_entryIdx env k e.anime 0 ss ps1 evs1
            hsels ev hev
          rw [this] at hi
          injection hi with hi
          omega
        · exact Nat.le_of_succ_le (ih (k + 1) _ _ _ hrec ev hev i hi)

/-- A completed entry contributes no reconciliation events at its
index. -/
theorem reconcile_entries_completed (env : Env) :
    ∀ es k es' ps evs,
      reconcile_entries env k es = some (es', ps, evs) →
      ∀ d e, es[d]? = some e → e.status = "completed" →
      ∀ ev ∈ evs, eventEntryIdx ev ≠ some (k + d) := by
  intro es
  induction es with
  | nil =>
      intro k es' ps evs h d e hd
      simp at hd
  | cons e0 rest ih =>
      intro k es' ps evs h d e hd hc ev hev hidx
      rcases reconcile_entries_cons env k e0 rest es' ps evs h with
        ⟨es2, ps2, evs2, hrec, hcase⟩
      cases d with
      | zero =>
          simp at hd
          subst hd
          rcases hcase with ⟨_, _, _, rfl⟩ |
            ⟨hne, ss, ps1, evs1, hsels, _, _, rfl⟩
          · have := reconcile_entries_entryIdx env rest (k + 1) _ _ _
              hrec ev hev (k + 0) hidx
            omega
          · exact hne hc
      | succ d' =>
          simp at hd
          rcases hcase with ⟨_, _, _, rfl⟩ |
            ⟨hne, ss, ps1, evs1, hsels, _, _, rfl⟩
          · have := ih (k + 1) _ _ _ hrec d' e hd hc ev hev
            apply this
            rw [hidx]
            congr 1
            omega
          · rcases List.mem_append.mp hev with hev | hev
            · have := reconcile_sels_entryIdx env k e0.anime 0 ss ps1 evs1
                hsels ev hev
              rw [this] at hidx
              injection hidx with hidx
              omega
            · have := ih (k + 1) _ _ _ hrec d' e hd hc ev hev
              apply this
              rw [hidx]
              congr 1
              omega

/-- Every event of the outer reconciliation loop is a disk check or a
queue insertion (it carries an entry index). -/
theorem reconcile_entries_events (env : Env) :
    ∀ es k es' ps evs,
      reconcile_entries env k es = some (es', ps, evs) →
      ∀ ev ∈ evs, (eventEntryIdx ev).isSome = true := by
  intro es
  induction es with
  | nil =>
      intro k es' ps evs h ev hev
      rw [reconcile_entries] at h
      injection h with h'
      injection h' with h1 h2
      injection h2 with h2 h3
      subst h3
      simp at hev
  | cons e rest ih =>
      intro k es' ps evs h ev hev
      rcases reconcile_entries_cons env k e rest es' ps evs h with
        ⟨es2, ps2, evs2, hrec, hcase⟩
      rcases hcase with ⟨_, _, _, rfl⟩ |
        ⟨hne, ss, ps1, evs1, hsels, _, _, rfl⟩
      · exact ih (k + 1) _ _ _ hrec ev hev
      · rcases List.mem_append.mp hev with hev | hev
        · rw [reconcile_sels_entryIdx env k e.anime 0 ss ps1 evs1 hsels ev hev]
          rfl
        · exact ih (k + 1) _ _ _ hrec ev hev

/-- A positive existence check at `(i, j)` leaves the reconciled entry
list marked downloaded at `(i, j)`. -/
theorem reconcile_entries_flag (env : Env) :
    ∀ es k es' ps evs,
      reconcile_entries env k es = some (es', ps, evs) →
      ∀ i j, Event.diskCheck i j true ∈ evs →
      ∃ d e s, i = k + d ∧ es'[d]? = some e ∧ e.anime[j]? = some s ∧
        s.downloaded = true := by
  intro es
  induction es with
  | nil =>
      intro k es' ps evs h i j hev
      rw [reconcile_entries] at h
      injection h with h'
      injection h' with h1 h2
      injection h2 with h2 h3
      subst h3
      simp at hev
  | cons e rest ih =>
      intro k es' ps evs h i j hev
      rcases reconcile_entries_cons env k e rest es' ps evs h with
        ⟨es2, ps2, evs2, hrec, hcase⟩
      rcases hcase with ⟨_, rfl, _, rfl⟩ |
        ⟨hne, ss, ps1, evs1, hsels, rfl, _, rfl⟩
      · rcases ih (k + 1) _ _ _ hrec i j hev with ⟨d, e', s, hi, he', hs, hf⟩
        exact ⟨d + 1, e', s, by omega, by simpa using he', hs, hf⟩
      · rcases List.mem_append.mp hev with hev | hev
        · have hidx := reconcile_sels_entryIdx env k e.anime 0 ss ps1 evs1
            hsels _ hev
          simp [eventEntryIdx] at hidx
          rcases reconcile_sels_flag env k e.anime 0 ss ps1 evs1 hsels i j hev
            with ⟨d2, s, hj, hs, hf⟩
          refine ⟨0, { e with anime := ss }, s, by omega, by simp, ?_, hf⟩
          simpa [hj] using hs
        · rcases ih (k + 1) _ _ _ hrec i j hev with ⟨d, e', s, hi, he', hs, hf⟩
          exact ⟨d + 1, e', s, by omega, by simpa using he', hs, hf⟩

/-- A selection found on disk during reconciliation is never also
enqueued, across the whole pass. -/
theorem reconcile_entries_exclusive (env : Env) :
    ∀ es k es' ps evs,
      reconcile_entries env k es = some (es', ps, evs) →
      ∀ i j it l eps, Event.diskCheck i j true ∈ evs →
      Event.enqueue i j it l eps ∈ evs → False := by
  intro es
  induction es with
  | nil =>
      intro k es' ps evs h i j it l eps hd he
      rw [reconcile_entries] at h
      injection h with h'
      injection h' with h1 h2
      injection h2 with h2 h3
      subst h3
      simp at hd
  | cons e rest ih =>
      intro k es' ps evs h i j it l eps hd he
      rcases reconcile_entries_cons env k e rest es' ps evs h with
        ⟨es2, ps2, evs2, hrec, hcase⟩
      rcases hcase with ⟨_, _, _, rfl⟩ |
        ⟨hne, ss, ps1, evs1, hsels, _, _, rfl⟩
      · exact ih (k + 1) _ _ _ hrec i j it l eps hd he
      · rcases List.mem_append.mp hd with hd | hd
        · rcases List.mem_append.mp he with he | he
          · exact reconcile_sels_exclusive env k e.anime 0 ss ps1 evs1
              hsels i j it l eps hd he
          · have h1 := reconcile_sels_entryIdx env k e.anime 0 ss ps1 evs1
              hsels _ hd
            simp [eventEntryIdx] at h1
            have h2 := reconcile_entries_entryIdx env rest (k + 1) _ _ _
              hrec _ he i rfl
            omega
        · rcases List.mem_append.mp he with he | he
          · have h1 := reconcile_sels_entryIdx env k e.anime 0 ss ps1 evs1
              hsels _ he
            simp [eventEntryIdx] at h1
            have h2 := reconcile_entries_entryIdx env rest (k + 1) _ _ _
              hrec _ hd i rfl
            omega
          · exact ih (k + 1) _ _ _ hrec i j it l eps hd he

/-- Reconciling a fully-completed entry list is the identity and emits
neither work items nor events. -/
theorem reconcile_entries_all_completed (env : Env) :
    ∀ es k, (∀ e ∈ es, e.status = "completed") →
      reconcile_entries env k es = some (es, [], []) := by
  intro es
  induction es with
  | nil => intro k _; rfl
  | cons e rest ih =>
      intro k hall
      rw [reconcile_entries]
      rw [if_pos (by simp [hall e (by simp)])]
      rw [ih (k + 1) (fun e' he' => hall e' (by simp [he']))]

/-- The reconciliation pass followed by status recomputation only moves
each entry up the progress order. -/
theorem reconcile_entries_forall₂ (env : Env) :
    ∀ es k es' ps evs,
      reconcile_entries env k es = some (es', ps, evs) →
      List.Forall₂ EntryLE es (es'.map check_entry_completed) := by
  intro es
  induction es with
  | nil =>
      intro k es' ps evs h
      rw [reconcile_entries] at h
      injection h with h'
      injection h' with h1 h2
      subst h1
      exact List.Forall₂.nil
  | cons e rest ih =>
      intro k es' ps evs h
      rcases reconcile_entries_cons env k e rest es' ps evs h with
        ⟨es2, ps2, evs2, hrec, hcase⟩
      rcases hcase with ⟨hc, rfl, _, _⟩ |
        ⟨hne, ss, ps1, evs1, hsels, rfl, _, _⟩
      · refine List.Forall₂.cons ⟨fun _ => check_entry_completed_status e hc, ?_⟩
          (ih (k + 1) _ _ _ hrec)
        rw [check_entry_completed_anime]
        exact List.forall₂_same.mpr (fun _ _ => fun hd => hd)
      · refine List.Forall₂.cons ⟨fun hc => absurd hc hne, ?_⟩
          (ih (k + 1) _ _ _ hrec)
        rw [check_entry_completed_anime]
        exact reconcile_sels_forall₂ env k e.anime 0 ss ps1 evs1 hsels

/-! ## Process-phase lemmas -/

/-- Marking one selection raises it in the progress order pointwise. -/
theorem set_downloaded_at_forall₂ :
    ∀ sels j, List.Forall₂ SelLE sels (set_downloaded_at sels j) := by
  intro sels
  induction sels with
  | nil => intro j; exact List.Forall₂.nil
  | cons s rest ih =>
      intro j
      cases j with
      | zero =>
          exact List.Forall₂.cons (fun _ => rfl)
            (List.forall₂_same.mpr (fun _ _ => fun hd => hd))
      | succ j' => exact List.Forall₂.cons (fun hd => hd) (ih j')

/-- Marking and rechecking one entry raises the entry list pointwise. -/
theorem mark_entry_at_forall₂ :
    ∀ es i j, List.Forall₂ EntryLE es (mark_entry_at es i j) := by
  intro es
  induction es with
  | nil => intro i j; exact List.Forall₂.nil
  | cons e rest ih =>
      intro i j
      cases i with
      | zero =>
          refine List.Forall₂.cons ⟨?_, ?_⟩
            (List.forall₂_same.mpr (fun e' _ => EntryLE_refl e'))
          · intro hc
            exact check_entry_completed_status _ hc
          · rw [check_entry_completed_anime]
            exact set_downloaded_at_forall₂ e.anime j
      | succ i' => exact List.Forall₂.cons (EntryLE_refl e) (ih i' j)

/-- The success branch of `process` only moves the document up the
progress order. -/
theorem StateLE_mark (st : StateDoc) (n p : String) :
    StateLE st (mark_and_recheck st n p) := by
  rw [mark_and_recheck]
  cases h : find_anime_data st.entries n p with
  | none => exact StateLE_refl st
  | some ij =>
      exact ⟨mark_entry_at st.entries ij.1 ij.2, [], by simp,
        mark_entry_at_forall₂ st.entries ij.1 ij.2⟩

/-- Case analysis of one `process` iteration. -/
theorem process_item_cases (env : Env) (st : StateDoc) (pk : PickedItem) :
    (∃ st', st' = mark_and_recheck st pk.1.name pk.1.provider ∧
      process_item env st pk =
        (st', [],
         [Event.engineCall pk.1 pk.2.1 pk.2.2 (env.engine pk.1 pk.2.1 pk.2.2),
          Event.save st']) ∧
      StateLE st st') ∨
    ((env.engine pk.1 pk.2.1 pk.2.2).isEmpty = false ∧
      process_item env st pk =
        (st, env.engine pk.1 pk.2.1 pk.2.2,
         [Event.engineCall pk.1 pk.2.1 pk.2.2
            (env.engine pk.1 pk.2.1 pk.2.2)])) := by
  rw [process_item]
  cases h : (env.engine pk.1 pk.2.1 pk.2.2).isEmpty with
  | true =>
      exact Or.inl ⟨mark_and_recheck st pk.1.name pk.1.provider, rfl, rfl,
        StateLE_mark st pk.1.name pk.1.provider⟩
  | false =>
      exact Or.inr ⟨rfl, rfl⟩

/-- The state snapshots written during the `process` loop form a
monotone chain from the loop's initial state to its final state. -/
theorem process_all_chain (env : Env) :
    ∀ ps st stF errs evs, process_all env st ps = (stF, errs, evs) →
      List.Chain' StateLE (st :: saveDocs evs ++ [stF]) := by
  intro ps
  induction ps with
  | nil =>
      intro st stF errs evs h
      rw [process_all] at h
      injection h with h1 h2
      injection h2 with h2 h3
      subst h1; subst h3
      exact List.chain'_cons.mpr ⟨StateLE_refl st, List.chain'_singleton _⟩
  | cons pk rest ih =>
      intro st stF errs evs h
      rw [process_all] at h
      rcases process_item_cases env st pk with ⟨st', hst', hpi, hle⟩ | ⟨hne, hpi⟩
      · simp only [hpi] at h
        rcases hpa : process_all env st' rest with ⟨stF2, errs2, evs2⟩
        simp only [hpa] at h
        injection h with h1 h2
        injection h2 with h2 h3
        subst h1; subst h3
        simp only [saveDocs, List.filterMap_cons, List.filterMap_append] at *
        exact List.chain'_cons.mpr ⟨hle, ih st' stF2 errs2 evs2 hpa⟩
      · simp only [hpi] at h
        rcases hpa : process_all env st rest with ⟨stF2, errs2, evs2⟩
        simp only [hpa] at h
        injection h with h1 h2
        injection h2 with h2 h3
        subst h1; subst h3
        simpa [saveDocs] using ih st stF2 errs2 evs2 hpa

/-- Every event of the `process` loop is an engine call or a save. -/
theorem process_all_events (env : Env) :
    ∀ ps st stF errs evs, process_all env st ps = (stF, errs, evs) →
      ∀ ev ∈ evs, isProcessEvent ev = true := by
  intro ps
  induction ps with
  | nil =>
      intro st stF errs evs h ev hev
      rw [process_all] at h
      injection h with h1 h2
      injection h2 with h2 h3
      subst h3
      simp at hev
  | cons pk rest ih =>
      intro st stF errs evs h ev hev
      rw [process_all] at h
      rcases process_item_cases env st pk with ⟨st', hst', hpi, hle⟩ | ⟨hne, hpi⟩
      · simp only [hpi] at h
        rcases hpa : process_all env st' rest with ⟨stF2, errs2, evs2⟩
        simp only [hpa] at h
        injection h with h1 h2
        injection h2 with h2 h3
        subst h3
        simp at hev
        rcases hev with hev | hev | hev
        · subst hev; rfl
        · subst hev; rfl
        · exact ih st' stF2 errs2 evs2 hpa ev hev
      · simp only [hpi] at h
        rcases hpa : process_all env st rest with ⟨stF2, errs2, evs2⟩
        simp only [hpa] at h
        injection h with h1 h2
        injection h2 with h2 h3
        subst h3
        simp at hev
        rcases hev with hev | hev
        · subst hev; rfl
        · exact ih st stF2 errs2 evs2 hpa ev hev

/-! ## Event-shape bridges -/

/-- A resolver event has no entry index, is no queue insertion and no
save. -/
theorem isPromptEvent_props (ev : Event) (h : isPromptEvent ev = true) :
    eventEntryIdx ev = none ∧ (∀ i, isEnqueueFor i ev = false) ∧
    (∀ i j, isEnqueueAt i j ev = false) ∧ isSaveEvent ev = false := by
  cases ev <;>
    simp_all [isPromptEvent, eventEntryIdx, isEnqueueFor, isEnqueueAt,
      isSaveEvent]

/-- A process event is no resolver invocation and no queue insertion. -/
theorem isProcessEvent_props (ev : Event) (h : isProcessEvent ev = true) :
    (∀ q, isPromptFor q ev = false) ∧ (∀ i, isEnqueueFor i ev = false) ∧
    (∀ i j, isEnqueueAt i j ev = false) ∧
    (∀ i j b, ev ≠ Event.diskCheck i j b) := by
  cases ev <;>
    simp_all [isProcessEvent, isPromptFor, isEnqueueFor, isEnqueueAt]

/-- An indexed (reconciliation) event is no resolver invocation and no
save. -/
theorem idx_event_props (ev : Event) (h : (eventEntryIdx ev).isSome = true) :
    (∀ q, isPromptFor q ev = false) ∧ isSaveEvent ev = false := by
  cases ev <;> simp_all [eventEntryIdx, isPromptFor, isSaveEvent]

/-! ## Run decomposition -/

/-- Decomposition of a successful `take_input` into its phases. -/
theorem take_input_eq (env : Env) (names : List String) (st0 : StateDoc)
    (st : StateDoc) (picked : List PickedItem) (tr : List Event)
    (h : take_input env names st0 = some (st, picked, tr)) :
    ∃ st1 evA es2 evB,
      resolution_pass env names st0 = (st1, evA) ∧
      reconcile_entries env 0 st1.entries = some (es2, picked, evB) ∧
      st = recompute_statuses ⟨es2⟩ ∧
      tr = evA ++ [Event.save st1] ++ evB ++ [Event.save st] := by
  rw [take_input] at h
  rcases hrp : resolution_pass env names st0 with ⟨st1, evA⟩
  simp only [hrp] at h
  cases hre : reconcile_entries env 0 st1.entries with
  | none => rw [hre] at h; exact absurd h (by simp)
  | some r =>
      rcases r with ⟨es2, ps, evB⟩
      rw [hre] at h
      injection h with h'
      injection h' with h1 h2
      injection h2 with h2 h3
      subst h1; subst h2; subst h3
      exact ⟨st1, evA, es2, evB, rfl, hre, rfl, rfl⟩

/-- Decomposition of a successful run into `take_input` and `process`. -/
theorem run_once_eq (env : Env) (names : List String) (st0 : StateDoc)
    (stF : StateDoc) (errs : List DlError) (tr : List Event)
    (h : run_once env names st0 = some (stF, errs, tr)) :
    names.isEmpty = false ∧
    ∃ st picked ev1, take_input env names st0 = some (st, picked, ev1) ∧
      ((picked = [] ∧ stF = st ∧ errs = [] ∧ tr = ev1) ∨
       (picked ≠ [] ∧ ∃ evP, process_all env st picked = (stF, errs, evP) ∧
         tr = ev1 ++ evP ++ [Event.serveErrors errs])) := by
  rw [run_once] at h
  cases hn : names.isEmpty with
  | true => rw [if_pos hn] at h; exact absurd h (by simp)
  | false =>
      rw [if_neg (by simp [hn])] at h
      refine ⟨rfl, ?_⟩
      cases hti : take_input env names st0 with
      | none => rw [hti] at h; exact absurd h (by simp)
      | some r =>
          rcases r with ⟨st, picked, ev1⟩
          simp only [hti] at h
          cases hp : picked.isEmpty with
          | true =>
              rw [if_pos hp] at h
              injection h with h'
              injection h' with h1 h2
              injection h2 with h2 h3
              subst h1; subst h2; subst h3
              exact ⟨st, picked, ev1, rfl,
                Or.inl ⟨List.isEmpty_iff.mp hp, rfl, rfl, rfl⟩⟩
          | false =>
              rw [if_neg (by simp [hp])] at h
              rcases hpa : process_all env st picked with ⟨stF2, errs2, evP⟩
              simp only [hpa] at h
              injection h with h'
              injection h' with h1 h2
              injection h2 with h2 h3
              subst h1; subst h2; subst h3
              exact ⟨st, picked, ev1, rfl,
                Or.inr ⟨by simpa using hp, evP, hpa, rfl⟩⟩

/-- A trace without save events has no save snapshots. -/
theorem saveDocs_nil_of (tr : List Event)
    (h : ∀ ev ∈ tr, isSaveEvent ev = false) : saveDocs tr = [] := by
  rw [saveDocs, List.filterMap_eq_nil_iff]
  intro ev hev
  have := h ev hev
  cases ev <;> simp_all [isSaveEvent]

/-- C3: across a whole run — resolution, existence reconciliation,
status recomputation and per-item download handling — the state
document only moves up the progress order: every saved snapshot and the
final state preserve every `downloaded = true` flag and every
`"completed"` status of every earlier snapshot, pointwise. -/
theorem claim_C3_monotone (env : Env) (names : List String) (st0 : StateDoc)
    (stF : StateDoc) (errs : List DlError) (tr : List Event)
    (h : run_once env names st0 = some (stF, errs, tr)) :
    List.Chain' StateLE (st0 :: saveDocs tr ++ [stF]) := by
  rcases run_once_eq env names st0 stF errs tr h with
    ⟨hn, st, picked, ev1, hti, hcase⟩
  rcases take_input_eq env names st0 st picked ev1 hti with
    ⟨st1, evA, es2, evB, hrp, hre, hst, htr⟩
  have hA : saveDocs evA = [] := by
    refine saveDocs_nil_of evA (fun ev hev => ?_)
    have hp := resolution_pass_events env names st0 ev (by rw [hrp]; exact hev)
    exact (isPromptEvent_props ev hp).2.2.2
  have hB : saveDocs evB = [] := by
    refine saveDocs_nil_of evB (fun ev hev => ?_)
    have hp := reconcile_entries_events env st1.entries 0 es2 picked evB hre
      ev hev
    exact (idx_event_props ev hp).2
  have h01 : StateLE st0 st1 := by
    rcases resolution_pass_entries env names st0 with ⟨tail, htail⟩
    rw [hrp] at htail
    exact ⟨st0.entries, tail, htail,
      List.forall₂_same.mpr (fun e _ => EntryLE_refl e)⟩
  have h13 : StateLE st1 st := by
    refine ⟨es2.map check_entry_completed, [], ?_, ?_⟩
    · rw [hst]; simp [recompute_statuses]
    · exact reconcile_entries_forall₂ env st1.entries 0 es2 picked evB hre
  rcases hcase with ⟨hpe, rfl, rfl, rfl⟩ | ⟨hpne, evP, hpa, rfl⟩
  · rw [htr]
    simp only [saveDocs] at hA hB ⊢
    simp only [List.filterMap_append, hA, hB, List.filterMap_cons,
      List.filterMap_nil, List.nil_append, List.append_nil]
    exact List.chain'_cons.mpr ⟨h01, List.chain'_cons.mpr ⟨h13,
      List.chain'_cons.mpr ⟨StateLE_refl _, List.chain'_singleton _⟩⟩⟩
  · rw [htr]
    have hchain := process_all_chain env picked st stF errs evP hpa
    simp only [saveDocs] at hA hB hchain ⊢
    simp only [List.filterMap_append, hA, hB, List.filterMap_cons,
      List.filterMap_nil, List.nil_append, List.append_nil] at hchain ⊢
    exact List.chain'_cons.mpr ⟨h01, List.chain'_cons.mpr ⟨h13, hchain⟩⟩

/-- C3 witness: the snapshot chain of the concrete partial-failure run
is monotone. -/
theorem claim_C3_witness :
    List.Chain' StateLE
      (st4 :: saveDocs (runTraceOf (run_once env4 ["q1", "q2", "q3"] st4)) ++
        [runStateOf (run_once env4 ["q1", "q2", "q3"] st4)]) :=
  claim_C3_monotone env4 ["q1", "q2", "q3"] st4
    (runStateOf (run_once env4 ["q1", "q2", "q3"] st4))
    (runErrsOf (run_once env4 ["q1", "q2", "q3"] st4))
    (runTraceOf (run_once env4 ["q1", "q2", "q3"] st4)) rfl

/-- C2: an entry that is `"completed"` when the run starts is never
prompted for (search, language or episode prompts with its query) and
none of its selections is ever enqueued for the download engine. -/
theorem claim_C2_completed_skip (env : Env) (names : List String)
    (st0 : StateDoc) (stF : StateDoc) (errs : List DlError) (tr : List Event)
    (i : Nat) (e : Entry)
    (h : run_once env names st0 = some (stF, errs, tr))
    (hi : st0.entries[i]? = some e)
    (hc : e.status = "completed") :
    tr.all (fun ev => !isPromptFor e.query ev && !isEnqueueFor i ev) = true := by
  rcases run_once_eq env names st0 stF errs tr h with
    ⟨hn, st, picked, ev1, hti, hcase⟩
  rcases take_input_eq env names st0 st picked ev1 hti with
    ⟨st1, evA, es2, evB, hrp, hre, hst, htr⟩
  have hfind : (find_state_entry st0 e.query).isSome = true := by
    rw [find_state_entry, List.find?_isSome]
    exact ⟨e, List.getElem?_mem hi, by simp⟩
  have hlen : i < st0.entries.length := by
    rcases List.getElem?_eq_some_iff.mp hi with ⟨hl, _⟩
    exact hl
  have hst1i : st1.entries[i]? = some e := by
    rcases resolution_pass_entries env names st0 with ⟨tail, htail⟩
    rw [hrp] at htail
    rw [htail, List.getElem?_append_left hlen]
    exact hi
  have hev1 : ∀ ev ∈ ev1,
      isPromptFor e.query ev = false ∧ isEnqueueFor i ev = false := by
    intro ev hev
    rw [htr] at hev
    rcases List.mem_append.mp hev with hev | hev
    · rcases List.mem_append.mp hev with hev | hev
      · rcases List.mem_append.mp hev with hev | hev
        · refine ⟨?_, ?_⟩
          · exact resolution_pass_no_prompts env e.query names st0 hfind ev
              (by rw [hrp]; exact hev)
          · have hp := resolution_pass_events env names st0 ev
              (by rw [hrp]; exact hev)
            exact (isPromptEvent_props ev hp).2.1 i
        · simp at hev
          subst hev
          exact ⟨rfl, rfl⟩
      · have hidx := reconcile_entries_events env st1.entries 0 es2 picked
          evB hre ev hev
        refine ⟨(idx_event_props ev hidx).1 e.query, ?_⟩
        cases henq : isEnqueueFor i ev with
        | false => rfl
        | true =>
            exfalso
            have hshape : eventEntryIdx ev = some i := by
              cases ev <;> simp_all [isEnqueueFor, eventEntryIdx]
            have := reconcile_entries_completed env st1.entries 0 es2 picked
              evB hre i e hst1i hc ev hev
            rw [Nat.zero_add] at this
            exact this hshape
    · simp at hev
      subst hev
      exact ⟨rfl, rfl⟩
  rw [List.all_eq_true]
  intro ev hev
  suffices hsuff : isPromptFor e.query ev = false ∧ isEnqueueFor i ev = false by
    simp [hsuff.1, hsuff.2]
  rcases hcase with ⟨hpe, rfl, rfl, rfl⟩ | ⟨hpne, evP, hpa, rfl⟩
  · exact hev1 ev hev
  · rcases List.mem_append.mp hev with hev | hev
    · rcases List.mem_append.mp hev with hev | hev
      · exact hev1 ev hev
      · have hp := process_all_events env picked st stF errs evP hpa ev hev
        exact ⟨(isProcessEvent_props ev hp).1 e.query,
          (isProcessEvent_props ev hp).2.1 i⟩
    · simp at hev
      subst hev
      exact ⟨rfl, rfl⟩

/-- C2 witness: a run over a state whose only entry is completed never
prompts for it nor enqueues its selection. -/
theorem claim_C2_witness :
    (runTraceOf (run_once env1 ["q"] stC)).all
      (fun ev => !isPromptFor "q" ev && !isEnqueueFor 0 ev) = true :=
  claim_C2_completed_skip env1 ["q"] stC
    (runStateOf (run_once env1 ["q"] stC))
    (runErrsOf (run_once env1 ["q"] stC))
    (runTraceOf (run_once env1 ["q"] stC)) 0
    ⟨"q", [⟨"p", "idA", "A", ["sub"], "sub", [1], true⟩], "completed"⟩
    rfl rfl rfl

/-- A saved document is a snapshot of the trace. -/
theorem mem_saveDocs_of (tr : List Event) (d : StateDoc)
    (h : Event.save d ∈ tr) : d ∈ saveDocs tr := by
  rw [saveDocs]
  exact List.mem_filterMap.mpr ⟨Event.save d, h, rfl⟩

/-- C8 (amended): a selection found complete on disk is marked
`downloaded = true` in memory and never enqueued, and the marked flag
is contained in a document saved during the run (the single save at the
end of the reconciliation phase); the document is not persisted between
one selection's disk check and the next. -/
theorem claim_C8_found_marked (env : Env) (names : List String)
    (st0 : StateDoc) (stF : StateDoc) (errs : List DlError) (tr : List Event)
    (i j : Nat)
    (h : run_once env names st0 = some (stF, errs, tr))
    (hd : Event.diskCheck i j true ∈ tr) :
    tr.all (fun ev => !isEnqueueAt i j ev) = true ∧
    (saveDocs tr).any (fun d => selFlagAt d i j) = true := by
  rcases run_once_eq env names st0 stF errs tr h with
    ⟨hn, st, picked, ev1, hti, hcase⟩
  rcases take_input_eq env names st0 st picked ev1 hti with
    ⟨st1, evA, es2, evB, hrp, hre, hst, htr⟩
  -- the positive check can only come from the reconciliation phase
  have hdB : Event.diskCheck i j true ∈ evB := by
    have hnotA : Event.diskCheck i j true ∉ evA := by
      intro hmem
      have hp := resolution_pass_events env names st0 _ (by rw [hrp]; exact hmem)
      simp [isPromptEvent] at hp
    have hnotP : ∀ ps s sF es evP, process_all env s ps = (sF, es, evP) →
        Event.diskCheck i j true ∉ evP := by
      intro ps s sF es evP hpa hmem
      have hp := process_all_events env ps s sF es evP hpa _ hmem
      simp [isProcessEvent] at hp
    rcases hcase with ⟨hpe, rfl, rfl, rfl⟩ | ⟨hpne, evP, hpa, rfl⟩
    · rw [htr] at hd
      rcases List.mem_append.mp hd with hd | hd
      · rcases List.mem_append.mp hd with hd | hd
        · rcases List.mem_append.mp hd with hd | hd
          · exact absurd hd hnotA
          · simp at hd
        · exact hd
      · simp at hd
    · rw [htr] at hd
      rcases List.mem_append.mp hd with hd | hd
      · rcases List.mem_append.mp hd with hd | hd
        · rcases List.mem_append.mp hd with hd | hd
          · rcases List.mem_append.mp hd with hd | hd
            · rcases List.mem_append.mp hd with hd | hd
              · exact absurd hd hnotA
              · simp at hd
            · exact hd
          · simp at hd
        · exact absurd hd (hnotP picked st stF errs evP hpa)
      · simp at hd
  -- the reconciled document carries the raised flag at (i, j)
  have hflag : selFlagAt st i j = true := by
    rcases reconcile_entries_flag env st1.entries 0 es2 picked evB hre i j hdB
      with ⟨d, e', s, hi0, he', hs, hf⟩
    have hd0 : i = d := by omega
    rw [hd0]
    have hmap : st.entries[d]? = some (check_entry_completed e') := by
      rw [hst]
      simp [recompute_statuses, he']
    simp only [selFlagAt, hmap, check_entry_completed_anime, hs]
    exact hf
  have hsave : Event.save st ∈ tr := by
    rcases hcase with ⟨hpe, rfl, rfl, rfl⟩ | ⟨hpne, evP, hpa, rfl⟩ <;>
      · rw [htr]
        simp
  constructor
  · rw [List.all_eq_true]
    intro ev hev
    cases henq : isEnqueueAt i j ev with
    | false => rfl
    | true =>
        exfalso
        have hshape : ∃ it l eps, ev = Event.enqueue i j it l eps := by
          cases ev <;> simp_all [isEnqueueAt]
        rcases hshape with ⟨it, l, eps, rfl⟩
        -- a queue insertion can only come from the reconciliation phase
        have hevB : Event.enqueue i j it l eps ∈ evB := by
          have hnotA : Event.enqueue i j it l eps ∉ evA := by
            intro hmem
            have hp := resolution_pass_events env names st0 _
              (by rw [hrp]; exact hmem)
            simp [isPromptEvent] at hp
          have hnotP : ∀ ps s sF es evP, process_all env s ps = (sF, es, evP) →
              Event.enqueue i j it l eps ∉ evP := by
            intro ps s sF es evP hpa hmem
            have hp := process_all_events env ps s sF es evP hpa _ hmem
            simp [isProcessEvent] at hp
          rcases hcase with ⟨hpe, rfl, rfl, rfl⟩ | ⟨hpne, evP, hpa, rfl⟩
          · rw [htr] at hev
            rcases List.mem_append.mp hev with hev | hev
            · rcases List.mem_append.mp hev with hev | hev
              · rcases List.mem_append.mp hev with hev | hev
                · exact absurd hev hnotA
                · simp at hev
              · exact hev
            · simp at hev
          · rw [htr] at hev
            rcases List.mem_append.mp hev with hev | hev
            · rcases List.mem_append.mp hev with hev | hev
              · rcases List.mem_append.mp hev with hev | hev
                · rcases List.mem_append.mp hev with hev | hev
                  · rcases List.mem_append.mp hev with hev | hev
                    · exact absurd hev hnotA
                    · simp at hev
                  · exact hev
                · simp at hev
              · exact absurd hev (hnotP picked st stF errs evP hpa)
            · simp at hev
        exact reconcile_entries_exclusive env st1.entries 0 es2 picked evB
          hre i j it l eps hdB hevB
  · rw [List.any_eq_true]
    exact ⟨st, mem_saveDocs_of tr st hsave, hflag⟩

/-- C8 counterexample: with two selections both already on disk, the
second selection is examined right after the first positive check with
no save in between — the document is persisted only after the whole
reconciliation loop, not immediately. -/
theorem claim_C8_counterexample :
    Event.diskCheck 0 0 true ∈ runTraceOf (run_once env8 ["q"] st8) ∧
    Event.diskCheck 0 1 true ∈ runTraceOf (run_once env8 ["q"] st8) ∧
    immediatePersistOK (runTraceOf (run_once env8 ["q"] st8)) = false := by
  exact ⟨by decide, by decide, by decide⟩

/-- C8 witness: in the concrete on-disk run, the found selection is
never enqueued and the marked flag reaches a saved document. -/
theorem claim_C8_witness :
    (runTraceOf (run_once env8 ["q"] st8)).all
      (fun ev => !isEnqueueAt 0 0 ev) = true ∧
    (saveDocs (runTraceOf (run_once env8 ["q"] st8))).any
      (fun d => selFlagAt d 0 0) = true :=
  claim_C8_found_marked env8 ["q"] st8
    (runStateOf (run_once env8 ["q"] st8))
    (runErrsOf (run_once env8 ["q"] st8))
    (runTraceOf (run_once env8 ["q"] st8)) 0 0 rfl (by decide)

/-- When every query already has an entry, the resolution pass is the
identity and prompts nothing. -/
theorem resolution_pass_all_found (env : Env) :
    ∀ names st, (∀ q ∈ names, (find_state_entry st q).isSome = true) →
      resolution_pass env names st = (st, []) := by
  intro names
  induction names with
  | nil => intro st _; rfl
  | cons q rest ih =>
      intro st hall
      have hq : process_query env st q = (st, []) := by
        rw [process_query]
        cases hf : find_state_entry st q with
        | some e => rfl
        | none =>
            have := hall q (by simp)
            rw [hf] at this
            simp at this
      simp only [resolution_pass, hq,
        ih st (fun q' hq' => hall q' (by simp [hq']))]
      rfl

/-- Recomputing statuses over a fully-completed document is the
identity. -/
theorem recompute_statuses_all_completed (st : StateDoc)
    (h : ∀ e ∈ st.entries, e.status = "completed") :
    recompute_statuses st = st := by
  cases st with
  | mk entries =>
      simp only [recompute_statuses]
      congr 1
      calc entries.map check_entry_completed
          = entries.map id :=
            List.map_congr_left
              (fun e he => check_entry_completed_fixed e (h e he))
        _ = entries := List.map_id entries

/-- C1 (amended): a second run on an unchanged input list and disk,
where every query already has an entry, performs zero downloads and
leaves the state document unchanged — provided every entry of the state
after the first run is `"completed"` (which fails when a download of
the first run failed; see the counterexample). -/
theorem claim_C1_second_run (env : Env) (names : List String)
    (st0 : StateDoc) (S1 : StateDoc) (errs1 : List DlError)
    (tr1 : List Event)
    (h1 : run_once env names st0 = some (S1, errs1, tr1))
    (h2 : ∀ q ∈ names, (find_state_entry S1 q).isSome = true)
    (h3 : ∀ e ∈ S1.entries, e.status = "completed") :
    run_once env names S1 = some (S1, [], [Event.save S1, Event.save S1]) ∧
    engineCalls [Event.save S1, Event.save S1] = [] := by
  refine ⟨?_, rfl⟩
  have hn : names.isEmpty = false := (run_once_eq env names st0 S1 errs1 tr1 h1).1
  have hti : take_input env names S1 =
      some (S1, [], [Event.save S1, Event.save S1]) := by
    rw [take_input]
    simp only [resolution_pass_all_found env names S1 h2]
    rw [reconcile_entries_all_completed env S1.entries 0 h3]
    have hrc : recompute_statuses (⟨S1.entries⟩ : StateDoc) = S1 := by
      have : (⟨S1.entries⟩ : StateDoc) = S1 := rfl
      rw [this]
      exact recompute_statuses_all_completed S1 h3
    simp [hrc]
  rw [run_once, if_neg (by simp [hn])]
  simp only [hti]
  rfl

/-- C1 counterexample: starting from a pending entry whose download
fails, a run leaves the state document unchanged — hence the run shown
IS the second run on an unchanged list, state and disk, its queries all
have entries and the resolver is silent, yet the download engine is
invoked once, not zero times. -/
theorem claim_C1_counterexample :
    run_once env1 ["q"] st1 =
      some (st1, runErrsOf (run_once env1 ["q"] st1),
        runTraceOf (run_once env1 ["q"] st1)) ∧
    (find_state_entry st1 "q").isSome = true ∧
    (runTraceOf (run_once env1 ["q"] st1)).all
      (fun ev => !isPromptFor "q" ev) = true ∧
    (engineCalls (runTraceOf (run_once env1 ["q"] st1))).length = 1 := by
  exact ⟨rfl, rfl, by decide, by decide⟩

/-- C1 witness: a second run over a fully-completed document keeps the
document and calls the engine zero times. -/
theorem claim_C1_witness :
    run_once env1 ["q"] stC = some (stC, [], [Event.save stC, Event.save stC]) ∧
    engineCalls [Event.save stC, Event.save stC] = [] :=
  claim_C1_second_run env1 ["q"] stC stC [] [Event.save stC, Event.save stC]
    rfl (by decide) (by decide)

end AnipyList
